import Mathlib

/-!
Verification of the dbexport repository: a shallow embedding of its
backend connectors (mysql, postgres) and of its schema-tree model,
together with proofs of the specified properties.

Conventions of the embedding:
* Rust panics (`panic!`, `.unwrap()`) are modelled by `Except.error` /
  `Option.none`; a `panic` outcome terminates the process with a nonzero
  exit code (101), distinct from the reported `exit(1)` path.
* Machine integers are carried as `Int` / `Nat`; floating point payloads
  are carried opaquely (no arithmetic is ever performed on them).
* External libraries (the mysql / postgres client crates, the regex
  engine, UTF-8 decoding) are modelled as explicit parameters or as
  plain data, so every claim is about the repository's own code.
-/

namespace DbExport

/-! ## Canonical type system

Modelled from the spec: `Value`, `ColumnType`, `ColumnInfo` and `Row`
live in `src/definitions.rs`, which is not part of the provided sources;
the spec (section 3) describes them as a tagged union over
{absent, signed/unsigned integers of widths 8-64, 32/64-bit floats,
text, raw bytes, date, time, date-time, timestamp}, and the constructor
names below are exactly the ones used by the code under `src/`. -/

/-- Chrono `NaiveDate` as built by `from_ymd`. -/
structure NaiveDate where
  year : Int
  month : Nat
  day : Nat
deriving DecidableEq, Repr

/-- Chrono `NaiveTime` as built by `from_hms`. -/
structure NaiveTime where
  hour : Nat
  minute : Nat
  second : Nat
deriving DecidableEq, Repr

/-- Chrono `NaiveDateTime` as built by `from_ymd(..).and_hms(..)`. -/
structure NaiveDateTime where
  date : NaiveDate
  time : NaiveTime
deriving DecidableEq, Repr

/-- Modelled from the spec: the canonical semantic type tag of a column
(`ColumnType` in `src/definitions.rs`, not under `src/`); variant names
are the ones referenced by the mysql and postgres connectors. -/
inductive ColumnType where
  | I8 | I16 | I32 | I64
  | U8 | U16 | U32 | U64
  | F32 | F64
  | String | Bytes | Decimal | JSON
  | Date | Time | DateTime | Timestamp
deriving DecidableEq, Repr

/-- Modelled from the spec: the canonical cell value
(`Value` in `src/definitions.rs`, not under `src/`). Float payloads are
opaque (`Nat` bit patterns); no arithmetic is done on them. -/
inductive Value where
  | None
  | I8 (v : Int) | I16 (v : Int) | I32 (v : Int) | I64 (v : Int)
  | U8 (v : Nat) | U16 (v : Nat) | U32 (v : Nat) | U64 (v : Nat)
  | F32 (bits : Nat) | F64 (bits : Nat)
  | String (s : String)
  | Bytes (bs : List Nat)
  | Date (d : NaiveDate)
  | Time (t : NaiveTime)
  | DateTime (dt : NaiveDateTime)
  | Timestamp (dt : NaiveDateTime)
deriving DecidableEq, Repr

/-- Modelled from the spec: `ColumnInfo` = {name, ColumnType}
(`src/definitions.rs`, not under `src/`). -/
structure ColumnInfo where
  name : String
  data_type : ColumnType
deriving DecidableEq, Repr

/-- A `Row` is an ordered sequence of canonical values. -/
abbrev Row := List Value

/-! ## MySQL backend embedding (`src/sources/mysql/mod.rs`) -/

/-- The native wire value of one mysql cell (`mysql::Value`). -/
inductive MyValue where
  | NULL
  | Int (v : Int)
  | UInt (v : Nat)
  | Float (bits : Nat)
  | Bytes (bs : List Nat)
  | Date (year month day hour minute second microsecond : Nat)
  | Time (negative : Bool) (days hours minutes seconds microseconds : Nat)
deriving DecidableEq, Repr

/-- The native mysql column-type tag (`mysql::consts::ColumnType`). -/
inductive MyColumnType where
  | MYSQL_TYPE_DECIMAL | MYSQL_TYPE_TINY | MYSQL_TYPE_SHORT | MYSQL_TYPE_LONG
  | MYSQL_TYPE_FLOAT | MYSQL_TYPE_DOUBLE | MYSQL_TYPE_NULL | MYSQL_TYPE_TIMESTAMP
  | MYSQL_TYPE_LONGLONG | MYSQL_TYPE_INT24 | MYSQL_TYPE_DATE | MYSQL_TYPE_TIME
  | MYSQL_TYPE_DATETIME | MYSQL_TYPE_YEAR | MYSQL_TYPE_NEWDATE | MYSQL_TYPE_VARCHAR
  | MYSQL_TYPE_BIT | MYSQL_TYPE_TIMESTAMP2 | MYSQL_TYPE_DATETIME2 | MYSQL_TYPE_TIME2
  | MYSQL_TYPE_JSON | MYSQL_TYPE_NEWDECIMAL | MYSQL_TYPE_ENUM | MYSQL_TYPE_SET
  | MYSQL_TYPE_TINY_BLOB | MYSQL_TYPE_MEDIUM_BLOB | MYSQL_TYPE_LONG_BLOB
  | MYSQL_TYPE_BLOB | MYSQL_TYPE_VAR_STRING | MYSQL_TYPE_STRING
  | MYSQL_TYPE_GEOMETRY
deriving DecidableEq, Repr

/-- Result-set column metadata as exposed by the mysql crate
(`column.name_str()`, `column.column_type()`, `column.flags()`;
only the UNSIGNED flag is consulted by the code). -/
structure MyColumn where
  name : String
  column_type : MyColumnType
  unsigned : Bool
deriving DecidableEq, Repr

open MyColumnType in
/-- The native-type to canonical-type mapping of
`MysqlSourceBatchIterator::get_column_info` (mod.rs lines 207-249):
`none` models the `panic!` of the default arm. -/
def mysqlMapColumnType (ct : MyColumnType) (unsigned : Bool) : Option ColumnType :=
  match ct with
  | MYSQL_TYPE_DECIMAL => some .Decimal
  | MYSQL_TYPE_NEWDECIMAL => some .Decimal
  | MYSQL_TYPE_TINY => some (if unsigned then .U8 else .I8)
  | MYSQL_TYPE_SHORT => some (if unsigned then .U16 else .I16)
  | MYSQL_TYPE_LONG => some (if unsigned then .U32 else .I32)
  | MYSQL_TYPE_LONGLONG => some (if unsigned then .U64 else .I64)
  | MYSQL_TYPE_INT24 => some (if unsigned then .U32 else .I32)
  | MYSQL_TYPE_VARCHAR => some .String
  | MYSQL_TYPE_VAR_STRING => some .String
  | MYSQL_TYPE_STRING => some .String
  | MYSQL_TYPE_FLOAT => some .F32
  | MYSQL_TYPE_DOUBLE => some .F64
  | MYSQL_TYPE_JSON => some .JSON
  | MYSQL_TYPE_TINY_BLOB => some .Bytes
  | MYSQL_TYPE_MEDIUM_BLOB => some .Bytes
  | MYSQL_TYPE_LONG_BLOB => some .Bytes
  | MYSQL_TYPE_BLOB => some .Bytes
  | MYSQL_TYPE_TIMESTAMP => some .Timestamp
  | MYSQL_TYPE_DATE => some .Date
  | MYSQL_TYPE_TIME => some .Time
  | MYSQL_TYPE_TIME2 => some .Time
  | MYSQL_TYPE_DATETIME => some .DateTime
  | MYSQL_TYPE_DATETIME2 => some .DateTime
  | MYSQL_TYPE_YEAR => some (.I64)
  | MYSQL_TYPE_NEWDATE => some .Date
  | MYSQL_TYPE_TIMESTAMP2 => some .Timestamp
  | MYSQL_TYPE_NULL => none
  | MYSQL_TYPE_BIT => none
  | MYSQL_TYPE_ENUM => none
  | MYSQL_TYPE_SET => none
  | MYSQL_TYPE_GEOMETRY => none

/-- `MysqlSourceBatchIterator::get_column_info` over a column list:
one `ColumnInfo` per column, the first unsupported native type aborts
(`Except.error` models the `panic!`). -/
def mysqlGetColumnInfo : List MyColumn → Except String (List ColumnInfo)
  | [] => .ok []
  | c :: cs =>
    match mysqlMapColumnType c.column_type c.unsigned with
    | none => .error ("mysql: unsupported column type: " ++ reprStr c.column_type)
    | some ty => do
      let rest ← mysqlGetColumnInfo cs
      .ok ({ name := c.name, data_type := ty } :: rest)

/-- Conversion of one mysql wire value to a canonical `Value`
(the body of the loop of `MysqlSourceBatchIterator::mysql_to_row`,
mod.rs lines 110-145). `decode` models `std::str::from_utf8` (the
external UTF-8 decoder); `ciType` is `column_info[idx].data_type`
(`none` when `idx` is out of bounds, in which case the date/time arms
panic via the index). The `Time` arm mirrors the source exactly: the
`negative` and `days` fields are ignored (`_negative`, `_day`). -/
def mysqlConvertCell (decode : List Nat → Option String)
    (ciType : Option ColumnType) (v : MyValue) : Except String Value :=
  match v with
  | .NULL => .ok .None
  | .Int n => .ok (.I64 n)
  | .UInt n => .ok (.U64 n)
  | .Float bits => .ok (.F64 bits)
  | .Bytes bs =>
    match decode bs with
    | some s => .ok (.String s)
    | none => .error "mysql: invalid utf8"
  | .Date year month day hour minute second _ =>
    match ciType with
    | some .Date => .ok (.Date ⟨(year : Int), month, day⟩)
    | some .DateTime => .ok (.DateTime ⟨⟨(year : Int), month, day⟩, ⟨hour, minute, second⟩⟩)
    | some .Time => .ok (.Time ⟨hour, minute, second⟩)
    | some .Timestamp => .ok (.DateTime ⟨⟨(year : Int), month, day⟩, ⟨hour, minute, second⟩⟩)
    | _ => .error "mysql: unsupported conversion"
  | .Time _ _ hours minutes seconds _ =>
    match ciType with
    | some .Time => .ok (.Time ⟨hours, minutes, seconds⟩)
    | _ => .error "mysql: unsupported conversion"

/-- The indexed cell loop of `mysql_to_row`: `idx` enumerates the wire
values; `column_info[idx]` is consulted only by the date/time arms. -/
def mysqlToRowAux (decode : List Nat → Option String) (ci : List ColumnInfo) :
    Nat → List MyValue → Except String Row
  | _, [] => .ok []
  | idx, v :: vs => do
    let x ← mysqlConvertCell decode (ci[idx]?.map ColumnInfo.data_type) v
    let rest ← mysqlToRowAux decode ci (idx + 1) vs
    .ok (x :: rest)

/-- `MysqlSourceBatchIterator::mysql_to_row` (mod.rs lines 107-148). -/
def mysql_to_row (decode : List Nat → Option String) (ci : List ColumnInfo)
    (cells : List MyValue) : Except String Row :=
  mysqlToRowAux decode ci 0 cells

/-- Fail-fast mapping over a list (the `.map(..).collect::<Result<_>>()`
idiom): the first failing element aborts. -/
def exceptMap {ε α β : Type} (f : α → Except ε β) : List α → Except ε (List β)
  | [] => .ok []
  | x :: xs => do
    let y ← f x
    let ys ← exceptMap f xs
    .ok (y :: ys)

/-- The open mysql batch cursor (`MysqlSourceBatchIterator`):
`results` is the remaining native result stream; `columns` the
result-set metadata (`self.results.columns_ref()`); `count` the
pre-computed row count. -/
structure MysqlSourceBatchIterator where
  batch_size : Nat
  count : Option Nat
  results : List (List MyValue)
  columns : List MyColumn
deriving DecidableEq, Repr

/-- `MysqlSourceBatchIterator::get_count` (mod.rs lines 257-259). -/
def MysqlSourceBatchIterator.get_count (it : MysqlSourceBatchIterator) : Option Nat :=
  it.count

/-- `MysqlSourceBatchIterator::get_column_info` applied to the
iterator's own columns. -/
def MysqlSourceBatchIterator.get_column_info (it : MysqlSourceBatchIterator) :
    Except String (List ColumnInfo) :=
  mysqlGetColumnInfo it.columns

/-- `MysqlSourceBatchIterator::next` (mod.rs lines 261-274): recomputes
the column info, pulls up to `batch_size` rows off the cursor, converts
each, and returns `none` for an empty batch. Transport errors of the
native iterator (the inner `v.unwrap()`) are outside the model: the
cursor holds already-received native rows. -/
def MysqlSourceBatchIterator.next (decode : List Nat → Option String)
    (it : MysqlSourceBatchIterator) :
    Except String (Option (List Row) × MysqlSourceBatchIterator) := do
  let ci ← it.get_column_info
  let taken := it.results.take it.batch_size
  let rows ← exceptMap (mysql_to_row decode ci) taken
  let it' := { it with results := it.results.drop it.batch_size }
  match rows.length with
  | 0 => .ok (none, it')
  | _ + 1 => .ok (some rows, it')

/-- The mysql connection as seen by `batch_iterator`: what each of the
two query-execution entry points of the pool returns. `first_exec`'s
nested result mirrors `first_exec(..)` returning
`Result<Option<Row>>` whose row yields an `Option<u64>` via `get(0)`. -/
structure MysqlConnModel where
  first_exec : String → Except String (Option (Option Nat))
  prep_exec : String → Except String (List MyColumn × List (List MyValue))

/-- The options consulted by `MysqlSourceConnection::batch_iterator`. -/
structure MysqlSourceOptions where
  query : String
  count : Bool

/-- Outcome of starting a batch cursor: a live iterator, an error report
followed by `exit(1)`, or a Rust panic (which terminates the process
with the panic exit code, not 1). Modelled from the spec: the report
itself is produced by `crate::utils::report_query_error`, which is not
under `src/`; per the spec it contains the literal failing query text
together with the backend error detail, so the constructor carries
exactly those two strings. -/
inductive BatchInitOutcome (α : Type) where
  | ok (it : α)
  | reportAndExit (queryText : String) (errorDetail : String) (code : Nat)
  | panicked (msg : String)
deriving DecidableEq, Repr

/-- Tests whether an outcome is the reported-error-then-exit-1 path. -/
def BatchInitOutcome.isReportExit1 {α : Type} : BatchInitOutcome α → Bool
  | .reportAndExit _ _ 1 => true
  | _ => false

/-- The wrapped counting query built by
`MysqlSourceConnection::batch_iterator` (mod.rs line 178). -/
def mysqlCountQuery (query : String) : String :=
  "select count(*) from (" ++ query ++ ") q"

/-- `MysqlSourceConnection::batch_iterator` (mod.rs lines 175-194),
paired with the trace of queries submitted to the connection, in
order. All three failure points are `.unwrap()` calls, i.e. panics. -/
def mysqlBatchIterator (conn : MysqlConnModel) (opts : MysqlSourceOptions)
    (batch_size : Nat) :
    BatchInitOutcome MysqlSourceBatchIterator × List String :=
  let step2 := fun (count : Option Nat) (trace : List String) =>
    match conn.prep_exec opts.query with
    | .error e => (.panicked e, trace ++ [opts.query])
    | .ok (cols, rows) =>
      (.ok { batch_size := batch_size, count := count, results := rows,
             columns := cols },
       trace ++ [opts.query])
  if opts.count then
    let cq := mysqlCountQuery opts.query
    match conn.first_exec cq with
    | .error e => (.panicked e, [cq])
    | .ok none => (.panicked "called Option::unwrap on a None value", [cq])
    | .ok (some none) => (.panicked "called Option::unwrap on a None value", [cq])
    | .ok (some (some v)) => step2 (some v) [cq]
  else
    step2 none []

/-! ## Postgres backend embedding (`src/sources/postgres/mod.rs`) -/

/-- The kind of a postgres type (`postgres::types::Kind`); the code
only distinguishes `Simple` from everything else. -/
inductive PgKind where
  | Simple
  | Other
deriving DecidableEq, Repr

/-- A postgres type: its kind and its name (`type_.kind()`,
`type_.name()`). -/
structure PgType where
  kind : PgKind
  name : String
deriving DecidableEq, Repr

/-- The wire payload of one postgres cell, as the typed `get::<T>(idx)`
accessors of the postgres crate expose it. -/
inductive PgValue where
  | Int4 (v : Int)
  | Int8 (v : Int)
  | Float4 (bits : Nat)
  | Float8 (bits : Nat)
  | Text (s : String)
  | Other
deriving DecidableEq, Repr

/-- One cell of a native postgres row: the column's type (from
`postgres_row.columns()`) and the stored value. -/
structure PgCell where
  type : PgType
  value : PgValue
deriving DecidableEq, Repr

/-- A native postgres row. -/
abbrev PgRow := List PgCell

/-- One arm of the conversion match inside
`PostgresSourceBatchIterator::next` (mod.rs lines 222-229): the
supported `(Kind::Simple, name)` pairs produce a canonical value via the
typed getter (whose type-mismatch panic is an `error`); every other type
hits the `panic!` arm. -/
def pgConvertCell (cell : PgCell) : Except String Value :=
  if cell.type.kind = .Simple ∧ cell.type.name = "int4" then
    match cell.value with
    | .Int4 v => .ok (.I32 v)
    | _ => .error "postgres: row get: type mismatch"
  else if cell.type.kind = .Simple ∧ cell.type.name = "int8" then
    match cell.value with
    | .Int8 v => .ok (.I64 v)
    | _ => .error "postgres: row get: type mismatch"
  else if cell.type.kind = .Simple ∧ cell.type.name = "float4" then
    match cell.value with
    | .Float4 v => .ok (.F32 v)
    | _ => .error "postgres: row get: type mismatch"
  else if cell.type.kind = .Simple ∧ cell.type.name = "float8" then
    match cell.value with
    | .Float8 v => .ok (.F64 v)
    | _ => .error "postgres: row get: type mismatch"
  else if cell.type.kind = .Simple ∧ cell.type.name = "text" then
    match cell.value with
    | .Text s => .ok (.String s)
    | _ => .error "postgres: row get: type mismatch"
  else .error ("postgres: unsupported type: " ++ cell.type.name)

/-- Column metadata entries as stored in the iterator's `columns`
field: name plus type (mirrors `postgres::Column`). -/
structure PgColumn where
  name : String
  type : PgType
deriving DecidableEq, Repr

/-- The open postgres cursor (`PostgresSourceBatchIterator`). -/
structure PgIter where
  batch_size : Nat
  result_iterator : List PgRow
  columns : List PgColumn
deriving DecidableEq, Repr

/-- `PostgresSourceBatchIterator::get_column_info`
(mod.rs lines 195-208): derived from the iterator's `columns` field;
the unsupported-type arm is a `panic!`. -/
def PgIter.get_column_info (it : PgIter) : Except String (List ColumnInfo) :=
  go it.columns
where
  go : List PgColumn → Except String (List ColumnInfo)
  | [] => .ok []
  | c :: cs =>
    if c.type.kind = .Simple ∧ c.type.name = "int4" then (go cs).map (⟨c.name, .I32⟩ :: ·)
    else if c.type.kind = .Simple ∧ c.type.name = "int8" then (go cs).map (⟨c.name, .I64⟩ :: ·)
    else if c.type.kind = .Simple ∧ c.type.name = "float4" then (go cs).map (⟨c.name, .F32⟩ :: ·)
    else if c.type.kind = .Simple ∧ c.type.name = "float8" then (go cs).map (⟨c.name, .F64⟩ :: ·)
    else if c.type.kind = .Simple ∧ c.type.name = "text" then (go cs).map (⟨c.name, .String⟩ :: ·)
    else .error ("postgres: unsupported type: " ++ c.type.name)

/-- `PostgresSourceBatchIterator::next` (mod.rs lines 214-239): pulls up
to `batch_size` native rows, converts each cell according to the row's
own column types, and returns `none` for an empty batch. -/
def PgIter.next (it : PgIter) : Except String (Option (List Row) × PgIter) := do
  let taken := it.result_iterator.take it.batch_size
  let rows ← exceptMap (fun r => exceptMap pgConvertCell r) taken
  let it' := { it with result_iterator := it.result_iterator.drop it.batch_size }
  if rows.isEmpty then
    .ok (none, it')
  else
    .ok (some rows, it')

/-- `PostgresSourceConnection::batch_iterator` (mod.rs lines 152-173):
on a query-execution error it reports the failing query text together
with the backend error detail and exits with code 1; on success the
iterator's `columns` field is the literal `vec![]` of line 162 (the
real computation is commented out at lines 163-165). -/
def pgBatchIterator (query : String) (queryResult : Except String (List PgRow))
    (batch_size : Nat) : BatchInitOutcome PgIter :=
  match queryResult with
  | .error e => .reportAndExit query e 1
  | .ok rows => .ok { batch_size := batch_size, result_iterator := rows, columns := [] }

/-! ## Schema tree model (`src/commands/schema.rs`)

The source stores the tree in an `id_tree::Tree<DBItem>` and addresses
nodes by opaque `NodeId`s. The embedding uses rose trees and addresses
a node by its path from the root (the list of child indices), which is
exactly the information a `NodeId` denotes. An empty `DBItems` (no
root) is `Option.none`. -/

/-- A node path: the child index at each level, root = `[]`. -/
abbrev Path := List Nat

/-- A rose tree of named nodes (`Tree<DBItem>` with `DBItem = {name}`). -/
inductive Dtree where
  | node (name : String) (children : List Dtree)
deriving Repr

/-- The node's `DBItem` name. -/
def Dtree.name : Dtree → String
  | .node n _ => n

/-- The node's ordered children. -/
def Dtree.children : Dtree → List Dtree
  | .node _ cs => cs

/-- `self.0.get(&node_id)`: the subtree rooted at a path. -/
def subtreeAt : Path → Dtree → Option Dtree
  | [], t => some t
  | i :: p, .node _ cs =>
    match cs[i]? with
    | none => none
    | some c => subtreeAt p c

mutual
/-- `traverse_post_order_ids` from a node: children blocks
left-to-right, then the node itself; paths relative to that node. -/
def postOrder : Dtree → List Path
  | .node _ cs => postOrderList 0 cs ++ [[]]

/-- Post-order paths contributed by a child list starting at index `i`. -/
def postOrderList : Nat → List Dtree → List Path
  | _, [] => []
  | i, c :: cs => (postOrder c).map (fun q => i :: q) ++ postOrderList (i + 1) cs
end

/-- The reversed `ancestor_ids` of a node: its proper ancestors listed
from the root down (schema.rs lines 85-90). -/
def ancestorChain (sp : Path) : List Path :=
  (List.range sp.length).map (fun k => sp.take k)

/-- `id_tree` insertion `UnderNode`: append a new leaf under the node
at the given path, returning the updated tree and the new child's
index. `none` models the `.unwrap()` on an invalid id. -/
def appendChildAt : Path → Dtree → String → Option (Dtree × Nat)
  | [], .node d cs, nm => some (.node d (cs ++ [.node nm []]), cs.length)
  | i :: p, .node d cs, nm =>
    match cs[i]? with
    | none => none
    | some c =>
      match appendChildAt p c nm with
      | none => none
      | some (c', k) => some (.node d (cs.set i c'), k)

/-- The state of `subtree_matching_query`'s loop: the result tree being
built (`new_dbitems`) and the source-id to result-id map (`node_map`). -/
structure SmqSt where
  newTree : Option Dtree
  nmap : List (Path × Path)

/-- One guarded insertion of `subtree_matching_query`
(schema.rs lines 91-116, both the ancestor loop body and the final
self-insertion share this logic): skip if the source node is already in
`node_map`; otherwise clone its data into the result tree -- as root if
it has no parent (id_tree `AsRoot` demotes any existing root to a
child), else under the mapped parent -- and record the mapping.
`none` models the `.unwrap()` panics. -/
def insertOne (src : Dtree) (st : SmqSt) (sp : Path) : Option SmqSt :=
  match st.nmap.lookup sp with
  | some _ => some st
  | none =>
    match subtreeAt sp src with
    | none => none
    | some s =>
      match sp with
      | [] =>
        let t' := match st.newTree with
          | none => Dtree.node s.name []
          | some old => Dtree.node s.name [old]
        some ⟨some t', ([], ([] : Path)) :: st.nmap⟩
      | _ :: _ =>
        match st.nmap.lookup sp.dropLast with
        | none => none
        | some pnew =>
          match st.newTree with
          | none => none
          | some t =>
            match appendChildAt pnew t s.name with
            | none => none
            | some (t', k) => some ⟨some t', (sp, pnew ++ [k]) :: st.nmap⟩

/-- The per-node body of `subtree_matching_query`'s post-order loop
(schema.rs lines 83-118): if the node matches, insert its ancestors
from the root down and then the node itself. The predicate returns
`Option Bool`: `none` models a panic inside `DBItem::matches`
(invalid regular expression). -/
def processNode (src : Dtree) (p : String → Option Bool) (st : SmqSt) (sp : Path) :
    Option SmqSt :=
  match subtreeAt sp src with
  | none => none
  | some s =>
    match p s.name with
    | none => none
    | some false => some st
    | some true => (ancestorChain sp ++ [sp]).foldlM (insertOne src) st

/-- `DBItems::subtree_matching_query` (schema.rs lines 77-122), with
the match predicate abstracted. The outer `Option` is panic-freedom;
the inner `Option Dtree` is the possibly-empty result `DBItems`. -/
def subtree_matching_query (t : Option Dtree) (p : String → Option Bool) :
    Option (Option Dtree) :=
  match t with
  | none => some none
  | some src => ((postOrder src).foldlM (processNode src p) ⟨none, []⟩).map SmqSt.newTree

/-- The external regex engine (the `regex` crate): compiling a pattern
(with `case_insensitive(true)`) either yields a matcher or fails. -/
structure RegexEngine where
  compile : String → Option (String → Bool)

/-- Substring containment, modelling Rust `str::contains`. -/
def strContainsSub (s sub : String) : Bool :=
  sub.isEmpty || (s.splitOn sub).length ≥ 2

/-- `DBItem::matches` (schema.rs lines 42-49): in regex mode the
pattern is compiled per call and the result unwrapped (`none` = panic);
otherwise lowercased-substring containment. -/
def DBItem.matches (engine : RegexEngine) (name query : String) (isRegex : Bool) :
    Option Bool :=
  if isRegex then (engine.compile query).map (fun m => m name)
  else some (strContainsSub name.toLower query)

mutual
/-- The spec-side description of `subtree_matching_query` (spec section
4.4): the minimal subtree containing every matching node plus all of
its ancestors, preserving structure and child order. A node is kept
exactly when it matches or some descendant is kept. -/
def specFilter (pb : String → Bool) : Dtree → Option Dtree
  | .node nm cs =>
    let cs' := specFilterList pb cs
    if pb nm || !cs'.isEmpty then some (.node nm cs') else none

/-- `specFilter` mapped over a child list, dropping excluded children. -/
def specFilterList (pb : String → Bool) : List Dtree → List Dtree
  | [] => []
  | c :: cs =>
    match specFilter pb c with
    | none => specFilterList pb cs
    | some r => r :: specFilterList pb cs
end

mutual
/-- Whether some node of the tree matches the predicate. -/
def hasMatch (pb : String → Bool) : Dtree → Bool
  | .node nm cs => pb nm || hasMatchList pb cs

/-- Whether some node of some tree in the list matches. -/
def hasMatchList (pb : String → Bool) : List Dtree → Bool
  | [] => false
  | c :: cs => hasMatch pb c || hasMatchList pb cs
end

mutual
/-- Order-preserving embedding of one tree into another: equal root
names and the child list embeds as a sublist with recursively
embedded elements. -/
def embedsB : Dtree → Dtree → Bool
  | .node n rs, .node n' cs => n == n' && embedsListB rs cs

/-- Order-preserving sublist embedding of child lists. -/
def embedsListB : List Dtree → List Dtree → Bool
  | [], _ => true
  | _ :: _, [] => false
  | r :: rs, c :: cs => (embedsB r c && embedsListB rs cs) || embedsListB (r :: rs) cs
end

/-- Embedding lifted to a possibly-empty result tree. -/
def optEmbedsB : Option Dtree → Dtree → Bool
  | none, _ => true
  | some r, t => embedsB r t

/-- A path is included when it is an ancestor-or-self of some path in
`M` (the matched nodes collected so far). -/
def incl (M : List Path) (q : Path) : Bool :=
  M.any (fun m => q.isPrefixOf m)

/-- How many children of the node at `r` with index below `i` are
included: the result-tree index of source child `i` of `r`. -/
def countKept (M : List Path) (r : Path) (i : Nat) : Nat :=
  ((List.range i).filter (fun j => incl M (r ++ [j]))).length

/-- The result-tree path of an included source node, component by
component (`r` is the absolute path of the current node). -/
def reindexGo (M : List Path) (r : Path) : Path → Path
  | [] => []
  | i :: q => countKept M r i :: reindexGo M (r ++ [i]) q

mutual
/-- The source tree restricted to the included paths (`sp` is the
absolute path of the current node). -/
def restrictGo (M : List Path) (sp : Path) : Dtree → Option Dtree
  | .node nm cs =>
    if incl M sp then some (.node nm (restrictGoList M sp 0 cs)) else none

/-- Restriction over a child list starting at index `i`. -/
def restrictGoList (M : List Path) (sp : Path) : Nat → List Dtree → List Dtree
  | _, [] => []
  | i, c :: cs =>
    match restrictGo M (sp ++ [i]) c with
    | none => restrictGoList M sp (i + 1) cs
    | some r => r :: restrictGoList M sp (i + 1) cs
end

mutual
/-- The matching node paths of a subtree, in post-order (`sp` is the
absolute path of the subtree's root). -/
def matchesIn (pb : String → Bool) (sp : Path) : Dtree → List Path
  | .node nm cs => matchesInList pb sp 0 cs ++ (if pb nm then [sp] else [])

/-- Matching paths contributed by a child list starting at index `i`. -/
def matchesInList (pb : String → Bool) (sp : Path) : Nat → List Dtree → List Path
  | _, [] => []
  | i, c :: cs => matchesIn pb (sp ++ [i]) c ++ matchesInList pb sp (i + 1) cs
end

mutual
/-- All node names of a tree (root first). -/
def namesOf : Dtree → List String
  | .node nm cs => nm :: namesOfList cs

/-- All node names of a list of trees. -/
def namesOfList : List Dtree → List String
  | [] => []
  | c :: cs => namesOf c ++ namesOfList cs
end

/-- Whether the subtree rooted at a path exists and contains a
matching node: the intended meaning of inclusion in the result tree. -/
def subtreeHasMatch (pb : String → Bool) (src : Dtree) (q : Path) : Bool :=
  match subtreeAt q src with
  | none => false
  | some t => hasMatch pb t

/-- `m` lies strictly to the left of `sp`: at some level the paths
diverge with `m`'s branch index smaller. -/
def LeftOf (m sp : Path) : Prop :=
  ∃ r a b, r ++ [b] <+: m ∧ r ++ [a] <+: sp ∧ b < a

/-- The loop invariant of `subtree_matching_query` after the matched
nodes `M` have been processed: the result tree is the restriction of
the source to the ancestor-closure of `M`, and `node_map` maps exactly
the included source paths to their reindexed result paths. -/
def Inv (src : Dtree) (M : List Path) (st : SmqSt) : Prop :=
  st.newTree = restrictGo M [] src ∧
  ∀ q : Path, st.nmap.lookup q = if incl M q then some (reindexGo M [] q) else none

/-! ## Schema tree construction (`src/commands/schema.rs` lines 185-245,
  the sqlite branch of `schema`) -/

/-- The builder state: the tree under construction (root is the
unlabeled sentinel) and the currently open table node. -/
structure BuildSt where
  tree : Dtree
  current_parent : Option Path

/-- One row callback of the schema build (schema.rs lines 210-244):
open a new table node under the root when none is open or when the
table name differs from the open node's name, then append the column
under the open table node. `none` models the `.unwrap()` panics. -/
def buildStep (st : BuildSt) (row : String × String) : Option BuildSt :=
  match
    (match st.current_parent with
     | none =>
       match appendChildAt [] st.tree row.1 with
       | none => none
       | some (t', k) => some (⟨t', some [k]⟩ : BuildSt)
     | some pid =>
       match subtreeAt pid st.tree with
       | none => none
       | some openNode =>
         if row.1 ≠ openNode.name then
           match appendChildAt [] st.tree row.1 with
           | none => none
           | some (t', k) => some (⟨t', some [k]⟩ : BuildSt)
         else some st) with
  | none => none
  | some st1 =>
    match st1.current_parent with
    | none => none
    | some pid =>
      match appendChildAt pid st1.tree row.2 with
      | none => none
      | some (t', _) => some (⟨t', st1.current_parent⟩ : BuildSt)

/-- The schema command's tree construction over the metadata rows
(table name, column name), starting from the sentinel root. -/
def schemaBuild (rows : List (String × String)) : Option Dtree :=
  (rows.foldlM buildStep ⟨.node "" [], none⟩).map BuildSt.tree

/-- Spec-side grouping step: extend the last run when the table name
repeats adjacently, else open a new run. -/
def groupStep (groups : List (String × List String)) (row : String × String) :
    List (String × List String) :=
  match groups.getLast? with
  | some (t, fs) =>
    if t = row.1 then groups.dropLast ++ [(t, fs ++ [row.2])]
    else groups ++ [(row.1, [row.2])]
  | none => [(row.1, [row.2])]

/-- Spec-side description of the build: adjacent runs of equal table
names, each run holding its column names in order. -/
def groupRuns (rows : List (String × String)) : List (String × List String) :=
  rows.foldl groupStep []

/-- The table subtrees corresponding to a list of runs. -/
def tableNodes (groups : List (String × List String)) : List Dtree :=
  groups.map (fun g => .node g.1 (g.2.map (fun f => .node f [])))

/-! ## Helper lemmas -/

/-- A successful `exceptMap` preserves length. -/
theorem exceptMap_length {ε α β : Type} (f : α → Except ε β) :
    ∀ (l : List α) (ys : List β), exceptMap f l = .ok ys → ys.length = l.length := by
  intro l
  induction l with
  | nil =>
    intro ys h
    simp [exceptMap, pure, Except.pure] at h
    simp [← h]
  | cons x xs ih =>
    intro ys h
    simp only [exceptMap] at h
    cases hx : f x with
    | error e => simp [hx, bind, Except.bind] at h
    | ok y =>
      simp only [hx, bind, Except.bind] at h
      cases hxs : exceptMap f xs with
      | error e => rw [hxs] at h; simp [pure, Except.pure] at h
      | ok ys' =>
        rw [hxs] at h
        simp [pure, Except.pure] at h
        subst h
        simp [ih ys' hxs]

/-- `mysqlToRowAux` over an appended list splits at the boundary, the
second block starting at the shifted index. -/
theorem mysqlToRowAux_append (decode : List Nat → Option String) (ci : List ColumnInfo) :
    ∀ (xs ys : List MyValue) (idx : Nat),
      mysqlToRowAux decode ci idx (xs ++ ys) =
        (do
          let v ← mysqlToRowAux decode ci idx xs
          let w ← mysqlToRowAux decode ci (idx + xs.length) ys
          pure (v ++ w)) := by
  intro xs
  induction xs with
  | nil =>
    intro ys idx
    simp [mysqlToRowAux]
    cases mysqlToRowAux decode ci idx ys <;> simp [bind, Except.bind, pure, Except.pure]
  | cons x xs ih =>
    intro ys idx
    simp only [List.cons_append, mysqlToRowAux, bind, Except.bind]
    cases hx : mysqlConvertCell decode (ci[idx]?.map ColumnInfo.data_type) x with
    | error e => rfl
    | ok v =>
      dsimp only
      rw [show xs.append ys = xs ++ ys from rfl, ih ys (idx + 1)]
      simp only [bind, Except.bind]
      cases hxs : mysqlToRowAux decode ci (idx + 1) xs with
      | error e => rfl
      | ok vs =>
        have h1 : idx + 1 + xs.length = idx + (x :: xs).length := by
          simp [List.length_cons]; omega
        rw [h1]
        cases mysqlToRowAux decode ci (idx + (x :: xs).length) ys <;>
          simp [pure, Except.pure]

/-- Shape of a successful `MysqlSourceBatchIterator.next`: the cursor
advances by `batch_size`, all other fields are unchanged, and the batch
is the successful conversion of the consumed prefix. -/
theorem mysql_next_cases (decode : List Nat → Option String)
    (it : MysqlSourceBatchIterator) (res : Option (List Row))
    (it' : MysqlSourceBatchIterator)
    (h : it.next decode = .ok (res, it')) :
    it' = { it with results := it.results.drop it.batch_size } ∧
    ∃ ci rows, it.get_column_info = .ok ci ∧
      exceptMap (mysql_to_row decode ci) (it.results.take it.batch_size) = .ok rows ∧
      ((rows = [] ∧ res = none) ∨ (rows ≠ [] ∧ res = some rows)) := by
  unfold MysqlSourceBatchIterator.next at h
  cases hci : it.get_column_info with
  | error e => rw [hci] at h; simp [bind, Except.bind] at h
  | ok ci =>
    rw [hci] at h
    simp only [bind, Except.bind] at h
    cases hm : exceptMap (mysql_to_row decode ci) (it.results.take it.batch_size) with
    | error e => rw [hm] at h; simp at h
    | ok rows =>
      rw [hm] at h
      cases hrow : rows with
      | nil =>
        subst hrow
        simp at h
        exact ⟨h.2.symm, ci, [], rfl, hm, Or.inl ⟨rfl, h.1.symm⟩⟩
      | cons r rs =>
        subst hrow
        simp at h
        exact ⟨h.2.symm, ci, r :: rs, rfl, hm,
          Or.inr ⟨by simp, h.1.symm⟩⟩

/-- Shape of a successful `PgIter.next`: the cursor advances by
`batch_size`, all other fields are unchanged, and the batch is the
successful conversion of the consumed prefix. -/
theorem pg_next_cases (it : PgIter) (res : Option (List Row)) (it' : PgIter)
    (h : it.next = .ok (res, it')) :
    it' = { it with result_iterator := it.result_iterator.drop it.batch_size } ∧
    ∃ rows,
      exceptMap (fun r => exceptMap pgConvertCell r)
        (it.result_iterator.take it.batch_size) = .ok rows ∧
      ((rows = [] ∧ res = none) ∨ (rows ≠ [] ∧ res = some rows)) := by
  unfold PgIter.next at h
  dsimp only at h
  cases hm : exceptMap (fun r => exceptMap pgConvertCell r)
      (it.result_iterator.take it.batch_size) with
  | error e => rw [hm] at h; simp [bind, Except.bind] at h
  | ok rows =>
    rw [hm] at h
    simp only [bind, Except.bind] at h
    cases hrow : rows with
    | nil =>
      subst hrow
      simp at h
      exact ⟨h.2.symm, [], rfl, Or.inl ⟨rfl, h.1.symm⟩⟩
    | cons r rs =>
      subst hrow
      simp at h
      exact ⟨h.2.symm, r :: rs, rfl, Or.inr ⟨by simp, h.1.symm⟩⟩

/-! ## Claim theorems: backend connectors -/

/-- C1: the claimed invariant `get_column_info().length = row.length`
fails on the postgres backend: `batch_iterator` stores the literal
`vec![]` as `columns` (postgres/mod.rs line 162, the real computation
being commented out), so `get_column_info()` returns the empty list
while `next()` yields rows of the true column count. Evaluation at the
failing input: a result set with one `int4` column and one row. -/
theorem spec_C1 :
    pgBatchIterator "select a from t" (.ok [[⟨⟨.Simple, "int4"⟩, .Int4 5⟩]]) 1 =
      .ok ⟨1, [[⟨⟨.Simple, "int4"⟩, .Int4 5⟩]], []⟩ ∧
    PgIter.get_column_info ⟨1, [[⟨⟨.Simple, "int4"⟩, .Int4 5⟩]], []⟩ = .ok [] ∧
    PgIter.next ⟨1, [[⟨⟨.Simple, "int4"⟩, .Int4 5⟩]], []⟩ =
      .ok (some [[Value.I32 5]], ⟨1, [], []⟩) ∧
    ([] : List ColumnInfo).length ≠ ([Value.I32 5] : Row).length :=
  ⟨rfl, rfl, rfl, by decide⟩

/-- C3: for the mysql connector, iff the count flag is set,
`batch_iterator` first submits the wrapped
`select count(*) from (<query>) q` before the user query, and
`get_count()` returns exactly the pre-computed total, which no call to
`next()` ever changes; with the flag unset only the user query runs
and `get_count()` is `none`. -/
theorem spec_C3 :
    ∀ (conn : MysqlConnModel) (opts : MysqlSourceOptions) (b : Nat),
      (opts.count = true →
        (mysqlBatchIterator conn opts b).2.head? = some (mysqlCountQuery opts.query) ∧
        ∀ it, (mysqlBatchIterator conn opts b).1 = .ok it →
          (mysqlBatchIterator conn opts b).2 = [mysqlCountQuery opts.query, opts.query] ∧
          ∃ v, conn.first_exec (mysqlCountQuery opts.query) = .ok (some (some v)) ∧
            it.get_count = some v) ∧
      (opts.count = false →
        (mysqlBatchIterator conn opts b).2 = [opts.query] ∧
        ∀ it, (mysqlBatchIterator conn opts b).1 = .ok it → it.get_count = none) ∧
      (∀ (decode : List Nat → Option String) it res it',
        MysqlSourceBatchIterator.next decode it = .ok (res, it') →
          it'.get_count = it.get_count) := by
  intro conn opts b
  refine ⟨?_, ?_, ?_⟩
  · intro hc
    simp only [mysqlBatchIterator, hc, if_true]
    cases hfe : conn.first_exec (mysqlCountQuery opts.query) with
    | error e => simp
    | ok o =>
      match o with
      | none => simp
      | some none => simp
      | some (some v) =>
        cases hpe : conn.prep_exec opts.query with
        | error e => simp
        | ok pr =>
          refine ⟨rfl, ?_⟩
          intro it hit
          refine ⟨rfl, v, rfl, ?_⟩
          injection hit with h1
          rw [← h1]
          rfl
  · intro hc
    simp only [mysqlBatchIterator, hc, if_false, Bool.false_eq_true]
    cases hpe : conn.prep_exec opts.query with
    | error e => simp
    | ok pr =>
      refine ⟨rfl, ?_⟩
      intro it hit
      injection hit with h1
      rw [← h1]
      rfl
  · intro decode it res it' h
    have := (mysql_next_cases decode it res it' h).1
    subst this
    rfl

/-- C3 witness: a two-row table with count enabled runs the wrapped
count query first and reports exactly 2, which iteration never
changes; with count disabled only the user query runs. -/
theorem spec_C3_witness :
    ((mysqlBatchIterator
        ⟨fun _ => .ok (some (some 2)),
         fun _ => .ok ([⟨"a", .MYSQL_TYPE_LONGLONG, false⟩], [[.Int 1], [.Int 2]])⟩
        ⟨"select * from t", true⟩ 1).2 =
      [mysqlCountQuery "select * from t", "select * from t"]) ∧
    MysqlSourceBatchIterator.get_count
      ⟨1, some 2, [[.Int 1], [.Int 2]], [⟨"a", .MYSQL_TYPE_LONGLONG, false⟩]⟩ = some 2 ∧
    ((mysqlBatchIterator
        ⟨fun _ => .ok (some (some 2)),
         fun _ => .ok ([⟨"a", .MYSQL_TYPE_LONGLONG, false⟩], [[.Int 1], [.Int 2]])⟩
        ⟨"select * from t", false⟩ 1).2 = ["select * from t"]) ∧
    MysqlSourceBatchIterator.get_count
      ⟨1, some 2, [[.Int 2]], [⟨"a", .MYSQL_TYPE_LONGLONG, false⟩]⟩ =
      MysqlSourceBatchIterator.get_count
        ⟨1, some 2, [[.Int 1], [.Int 2]], [⟨"a", .MYSQL_TYPE_LONGLONG, false⟩]⟩ := by
  have h := ((spec_C3
    ⟨fun _ => .ok (some (some 2)),
     fun _ => .ok ([⟨"a", .MYSQL_TYPE_LONGLONG, false⟩], [[.Int 1], [.Int 2]])⟩
    ⟨"select * from t", true⟩ 1).1 rfl).2
    ⟨1, some 2, [[.Int 1], [.Int 2]], [⟨"a", .MYSQL_TYPE_LONGLONG, false⟩]⟩ rfl
  refine ⟨h.1, ?_, ?_, ?_⟩
  · obtain ⟨v, hv, hc⟩ := h.2
    dsimp only at hv
    injection hv with h1
    injection h1 with h2
    injection h2 with h3
    rw [hc, ← h3]
  · exact ((spec_C3
      ⟨fun _ => .ok (some (some 2)),
       fun _ => .ok ([⟨"a", .MYSQL_TYPE_LONGLONG, false⟩], [[.Int 1], [.Int 2]])⟩
      ⟨"select * from t", false⟩ 1).2.1 rfl).1
  · exact (spec_C3
      ⟨fun _ => .ok (some (some 2)),
       fun _ => .ok ([⟨"a", .MYSQL_TYPE_LONGLONG, false⟩], [[.Int 1], [.Int 2]])⟩
      ⟨"select * from t", true⟩ 1).2.2 (fun _ => none)
      ⟨1, some 2, [[.Int 1], [.Int 2]], [⟨"a", .MYSQL_TYPE_LONGLONG, false⟩]⟩
      (some [[Value.I64 1]])
      ⟨1, some 2, [[.Int 2]], [⟨"a", .MYSQL_TYPE_LONGLONG, false⟩]⟩ rfl

/-- C4 (amended): on query-execution failure the postgres backend
reports the literal failing query text together with the backend error
detail and exits with code 1; the mysql backend instead panics through
`.unwrap()` (mysql/mod.rs line 184), terminating with the panic exit
code and without the reported-error path. -/
theorem spec_C4 :
    (∀ (q e : String) (b : Nat),
      pgBatchIterator q (.error e) b = .reportAndExit q e 1) ∧
    (∀ (conn : MysqlConnModel) (opts : MysqlSourceOptions) (b : Nat) (e : String),
      opts.count = false → conn.prep_exec opts.query = .error e →
        (mysqlBatchIterator conn opts b).1 = .panicked e ∧
        ((mysqlBatchIterator conn opts b).1.isReportExit1 = false)) := by
  refine ⟨fun q e b => rfl, ?_⟩
  intro conn opts b e hc hpe
  constructor
  · simp [mysqlBatchIterator, hc, hpe]
  · simp [mysqlBatchIterator, hc, hpe, BatchInitOutcome.isReportExit1]

/-- C4 witness: both amended behaviours at concrete inputs. -/
theorem spec_C4_witness :
    pgBatchIterator "select * from nosuch" (.error "relation nosuch does not exist") 500 =
      .reportAndExit "select * from nosuch" "relation nosuch does not exist" 1 ∧
    (mysqlBatchIterator ⟨fun _ => .ok none, fun _ => .error "no such table"⟩
      ⟨"select * from nosuch", false⟩ 500).1 = .panicked "no such table" :=
  ⟨spec_C4.1 "select * from nosuch" "relation nosuch does not exist" 500,
   (spec_C4.2 ⟨fun _ => .ok none, fun _ => .error "no such table"⟩
      ⟨"select * from nosuch", false⟩ 500 "no such table" rfl rfl).1⟩

/-- C4 counterexample to the original claim: for the mysql backend a
failing user query makes `batch_iterator` panic (process aborts with
the panic exit code), not report-and-exit-1 as claimed for every
backend. -/
theorem spec_C4_counterexample :
    (mysqlBatchIterator ⟨fun _ => .ok none, fun _ => .error "no such table: missing"⟩
      ⟨"select * from missing", false⟩ 500).1 = .panicked "no such table: missing" ∧
    ((mysqlBatchIterator ⟨fun _ => .ok none, fun _ => .error "no such table: missing"⟩
      ⟨"select * from missing", false⟩ 500).1.isReportExit1 = false) :=
  ⟨rfl, rfl⟩

/-- C5: the same wire-level `mysql::Value::Date` is interpreted through
the pre-computed `ColumnType` of its column position (first three
conjuncts), but a negative `mysql::Value::Time` interval is NOT
rejected: the `negative` flag is silently dropped (mysql/mod.rs line
137 binds it as `_negative`) and the value truncates to its absolute
value (last two conjuncts evaluate the code at the failing input). -/
theorem spec_C5 :
    mysql_to_row (fun _ => none) [⟨"d", .Date⟩] [.Date 2020 1 2 3 4 5 6] =
      .ok [.Date ⟨2020, 1, 2⟩] ∧
    mysql_to_row (fun _ => none) [⟨"d", .DateTime⟩] [.Date 2020 1 2 3 4 5 6] =
      .ok [.DateTime ⟨⟨2020, 1, 2⟩, ⟨3, 4, 5⟩⟩] ∧
    mysql_to_row (fun _ => none) [⟨"t", .Time⟩] [.Date 2020 1 2 3 4 5 6] =
      .ok [.Time ⟨3, 4, 5⟩] ∧
    mysql_to_row (fun _ => none) [⟨"t", .Time⟩] [.Time true 0 1 2 3 0] =
      .ok [.Time ⟨1, 2, 3⟩] ∧
    mysql_to_row (fun _ => none) [⟨"t", .Time⟩] [.Time false 0 1 2 3 0] =
      .ok [.Time ⟨1, 2, 3⟩] :=
  ⟨rfl, rfl, rfl, rfl, rfl⟩

/-- C10: `DBItem::matches` in regex mode compiles the pattern per call
and unwraps the result, so an invalid pattern panics (`none`); a valid
pattern yields the matcher's verdict; with the flag unset it never
panics and returns lowercased-substring containment. -/
theorem spec_C10 :
    ∀ (engine : RegexEngine) (name q : String),
      (engine.compile q = none → DBItem.matches engine name q true = none) ∧
      (∀ f, engine.compile q = some f → DBItem.matches engine name q true = some (f name)) ∧
      DBItem.matches engine name q false = some (strContainsSub name.toLower q) := by
  intro engine name q
  refine ⟨?_, ?_, rfl⟩
  · intro h; simp [DBItem.matches, h]
  · intro f h; simp [DBItem.matches, h]

/-- C10 witness: an engine that rejects every pattern makes regex-mode
matching panic at a concrete node, while a successfully compiled
pattern yields the matcher's verdict. -/
theorem spec_C10_witness :
    DBItem.matches ⟨fun _ => none⟩ "Orders" "(" true = none ∧
    DBItem.matches ⟨fun _ => some (fun n => n == "Orders")⟩ "Orders" "ord" true = some true := by
  constructor
  · exact (spec_C10 ⟨fun _ => none⟩ "Orders" "(").1 rfl
  · have h := (spec_C10 ⟨fun _ => some (fun n => n == "Orders")⟩ "Orders" "ord").2.1
      (fun n => n == "Orders") rfl
    rw [h]
    rfl

/-- C2 (amended with `1 ≤ batch_size`): every successful `next()`
returns either a non-empty batch of at most `batch_size` rows -- the
in-order conversion of the consumed cursor prefix -- or `none` exactly
when the cursor is exhausted, in which case the iterator is unchanged
and every further call keeps returning `none`; for both backends. -/
theorem spec_C2 :
    (∀ (decode : List Nat → Option String) (it : MysqlSourceBatchIterator),
      1 ≤ it.batch_size →
      ∀ res it', it.next decode = .ok (res, it') →
        it'.batch_size = it.batch_size ∧ it'.count = it.count ∧ it'.columns = it.columns ∧
        (match res with
         | some batch =>
            batch ≠ [] ∧ batch.length ≤ it.batch_size ∧
            (∃ ci, it.get_column_info = .ok ci ∧
              exceptMap (mysql_to_row decode ci) (it.results.take it.batch_size) = .ok batch) ∧
            it.results = it.results.take it.batch_size ++ it'.results
         | none =>
            it.results = [] ∧ it' = it ∧ it.next decode = .ok (none, it))) ∧
    (∀ (it : PgIter), 1 ≤ it.batch_size →
      ∀ res it', it.next = .ok (res, it') →
        it'.batch_size = it.batch_size ∧ it'.columns = it.columns ∧
        (match res with
         | some batch =>
            batch ≠ [] ∧ batch.length ≤ it.batch_size ∧
            exceptMap (fun r => exceptMap pgConvertCell r)
              (it.result_iterator.take it.batch_size) = .ok batch ∧
            it.result_iterator = it.result_iterator.take it.batch_size ++ it'.result_iterator
         | none => it.result_iterator = [] ∧ it' = it ∧ it.next = .ok (none, it))) := by
  constructor
  · intro decode it hb res it' h
    obtain ⟨hit', ci, rows, hci, hmap, hcase⟩ := mysql_next_cases decode it res it' h
    subst hit'
    refine ⟨rfl, rfl, rfl, ?_⟩
    rcases hcase with ⟨hrows, hres⟩ | ⟨hne, hres⟩
    · subst hres
      subst hrows
      have hlen := exceptMap_length _ _ _ hmap
      rw [List.length_take] at hlen
      simp only [List.length_nil] at hlen
      have h0 : it.results = [] := by
        rcases Nat.min_eq_zero_iff.mp hlen.symm with hz | hz
        · omega
        · exact List.eq_nil_of_length_eq_zero hz
      have heq : ({ it with results := it.results.drop it.batch_size }) = it := by
        rw [h0, List.drop_nil, ← h0]
      refine ⟨h0, heq, ?_⟩
      have hnext : it.next decode = .ok (none, { it with results := it.results.drop it.batch_size }) := by
        unfold MysqlSourceBatchIterator.next
        rw [show it.get_column_info = Except.ok ci from hci]
        simp only [bind, Except.bind, h0, List.take_nil, List.drop_nil]
        rfl
      rw [heq] at hnext
      exact hnext
    · subst hres
      have hlen := exceptMap_length _ _ _ hmap
      rw [List.length_take] at hlen
      refine ⟨hne, ?_, ⟨ci, hci, hmap⟩, (List.take_append_drop _ _).symm⟩
      omega
  · intro it hb res it' h
    obtain ⟨hit', rows, hmap, hcase⟩ := pg_next_cases it res it' h
    subst hit'
    refine ⟨rfl, rfl, ?_⟩
    rcases hcase with ⟨hrows, hres⟩ | ⟨hne, hres⟩
    · subst hres
      subst hrows
      have hlen := exceptMap_length _ _ _ hmap
      rw [List.length_take] at hlen
      simp only [List.length_nil] at hlen
      have h0 : it.result_iterator = [] := by
        rcases Nat.min_eq_zero_iff.mp hlen.symm with hz | hz
        · omega
        · exact List.eq_nil_of_length_eq_zero hz
      have heq : ({ it with result_iterator := it.result_iterator.drop it.batch_size }) = it := by
        rw [h0, List.drop_nil, ← h0]
      refine ⟨h0, heq, ?_⟩
      have hnext : it.next = .ok (none, { it with result_iterator := it.result_iterator.drop it.batch_size }) := by
        unfold PgIter.next
        simp only [bind, Except.bind, h0, List.take_nil, List.drop_nil]
        rfl
      rw [heq] at hnext
      exact hnext
    · subst hres
      have hlen := exceptMap_length _ _ _ hmap
      rw [List.length_take] at hlen
      refine ⟨hne, ?_, hmap, (List.take_append_drop _ _).symm⟩
      omega

/-- C2 counterexample to the original claim (quantified over every
batch size): with `batch_size = 0` the mysql `next()` returns `none`
although the cursor still holds a row, so `none` does not imply
exhaustion. -/
theorem spec_C2_counterexample :
    MysqlSourceBatchIterator.next (fun _ => none)
      ⟨0, none, [[MyValue.Int 1]], [⟨"a", .MYSQL_TYPE_LONGLONG, false⟩]⟩ =
      .ok (none, ⟨0, none, [[MyValue.Int 1]], [⟨"a", .MYSQL_TYPE_LONGLONG, false⟩]⟩) ∧
    ([[MyValue.Int 1]] : List (List MyValue)) ≠ [] :=
  ⟨rfl, by decide⟩

/-- C2 witness: the amended statement at a concrete two-row mysql
cursor with `batch_size = 1` and a concrete one-row postgres cursor. -/
theorem spec_C2_witness :
    (1 ≤ (1 : Nat)) ∧
    (MysqlSourceBatchIterator.next (fun _ => none)
        ⟨1, none, [[MyValue.Int 7], [MyValue.Int 8]], [⟨"a", .MYSQL_TYPE_LONGLONG, false⟩]⟩ =
      .ok (some [[Value.I64 7]],
        ⟨1, none, [[MyValue.Int 8]], [⟨"a", .MYSQL_TYPE_LONGLONG, false⟩]⟩)) ∧
    (([[Value.I64 7]] : List Row) ≠ [] ∧ ([[Value.I64 7]] : List Row).length ≤ 1 ∧
      (∃ ci, MysqlSourceBatchIterator.get_column_info
          ⟨1, none, [[MyValue.Int 7], [MyValue.Int 8]], [⟨"a", .MYSQL_TYPE_LONGLONG, false⟩]⟩ =
            .ok ci ∧
        exceptMap (mysql_to_row (fun _ => none) ci)
          ([[MyValue.Int 7], [MyValue.Int 8]].take 1) = .ok [[Value.I64 7]]) ∧
      ([[MyValue.Int 7], [MyValue.Int 8]] : List (List MyValue)) =
        [[MyValue.Int 7], [MyValue.Int 8]].take 1 ++ [[MyValue.Int 8]]) ∧
    (PgIter.next ⟨1, [[⟨⟨.Simple, "text"⟩, .Text "x"⟩]], []⟩ =
      .ok (some [[Value.String "x"]], ⟨1, [], []⟩)) ∧
    (([[Value.String "x"]] : List Row) ≠ [] ∧ ([[Value.String "x"]] : List Row).length ≤ 1) := by
  refine ⟨by decide, rfl, ?_, rfl, ?_⟩
  · have h := spec_C2.1 (fun _ => none)
      ⟨1, none, [[MyValue.Int 7], [MyValue.Int 8]], [⟨"a", .MYSQL_TYPE_LONGLONG, false⟩]⟩
      (by decide) (some [[Value.I64 7]])
      ⟨1, none, [[MyValue.Int 8]], [⟨"a", .MYSQL_TYPE_LONGLONG, false⟩]⟩ rfl
    exact h.2.2.2
  · have h := spec_C2.2 ⟨1, [[⟨⟨.Simple, "text"⟩, .Text "x"⟩]], []⟩
      (by decide) (some [[Value.String "x"]]) ⟨1, [], []⟩ rfl
    exact ⟨h.2.2.1, h.2.2.2.1⟩

/-- C6: an unrecognized native column type is fatal for both backends
(the mapping yields no fallback `ColumnType`; the whole metadata
conversion aborts at the first unsupported column), and a byte-valued
mysql cell is decoded as text, an invalid encoding aborting the row
conversion at the first bad cell. -/
theorem spec_C6 :
    (∀ (ct : MyColumnType) (u : Bool),
      mysqlMapColumnType ct u = none ↔
        (ct = .MYSQL_TYPE_NULL ∨ ct = .MYSQL_TYPE_BIT ∨ ct = .MYSQL_TYPE_ENUM ∨
         ct = .MYSQL_TYPE_SET ∨ ct = .MYSQL_TYPE_GEOMETRY)) ∧
    (∀ (cols : List MyColumn),
      (∃ ci, mysqlGetColumnInfo cols = .ok ci) ↔
        ∀ c ∈ cols, (mysqlMapColumnType c.column_type c.unsigned).isSome) ∧
    (∀ (decode : List Nat → Option String) (ci : List ColumnInfo)
        (pre : List MyValue) (bs : List Nat) (post : List MyValue) (vs : Row),
      decode bs = none →
      mysqlToRowAux decode ci 0 pre = .ok vs →
      mysql_to_row decode ci (pre ++ .Bytes bs :: post) = .error "mysql: invalid utf8") ∧
    (∀ (decode : List Nat → Option String) (ty : Option ColumnType)
        (bs : List Nat) (s : String),
      decode bs = some s → mysqlConvertCell decode ty (.Bytes bs) = .ok (.String s)) ∧
    (∀ (t : PgType) (v : PgValue),
      (t.kind ≠ .Simple ∨
        t.name ∉ (["int4", "int8", "float4", "float8", "text"] : List String)) →
      pgConvertCell ⟨t, v⟩ = .error ("postgres: unsupported type: " ++ t.name)) := by
  refine ⟨?_, ?_, ?_, ?_, ?_⟩
  · intro ct u
    cases ct <;> cases u <;> simp [mysqlMapColumnType]
  · intro cols
    induction cols with
    | nil => simp [mysqlGetColumnInfo]
    | cons c cs ih =>
      cases hm : mysqlMapColumnType c.column_type c.unsigned with
      | none =>
        simp only [mysqlGetColumnInfo, hm]
        constructor
        · rintro ⟨ci, hci⟩
          simp at hci
        · intro h
          have := h c (List.mem_cons_self c cs)
          rw [hm] at this
          simp at this
      | some ty =>
        cases hcs : mysqlGetColumnInfo cs with
        | error e =>
          simp only [mysqlGetColumnInfo, hm, hcs, bind, Except.bind]
          constructor
          · rintro ⟨ci, hci⟩
            simp at hci
          · intro h
            obtain ⟨ci, hci⟩ := ih.mpr (fun c' hc' => h c' (List.mem_cons_of_mem c hc'))
            rw [hci] at hcs
            cases hcs
        | ok rest =>
          simp only [mysqlGetColumnInfo, hm, hcs, bind, Except.bind]
          constructor
          · intro _
            intro c' hc'
            rcases List.mem_cons.mp hc' with hc' | hc'
            · subst hc'
              rw [hm]
              rfl
            · exact (ih.mp ⟨rest, hcs⟩) c' hc'
          · intro _
            exact ⟨_, rfl⟩
  · intro decode ci pre bs post vs hdec hpre
    rw [mysql_to_row, mysqlToRowAux_append, hpre]
    simp only [bind, Except.bind, pure, Except.pure, mysqlToRowAux, mysqlConvertCell, hdec]
  · intro decode ty bs s hdec
    simp [mysqlConvertCell, hdec]
  · intro t v h
    have hne : ∀ (nm : String), nm ∈ (["int4", "int8", "float4", "float8", "text"] : List String) →
        ¬(t.kind = .Simple ∧ t.name = nm) := by
      rintro nm hnm ⟨hk, hn⟩
      rcases h with h | h
      · exact h hk
      · rw [hn] at h
        exact h hnm
    unfold pgConvertCell
    rw [if_neg (hne _ (by simp)), if_neg (hne _ (by simp)), if_neg (hne _ (by simp)),
        if_neg (hne _ (by simp)), if_neg (hne _ (by simp))]

/-- C6 witness: the unsupported-type and utf8-failure hypotheses hold
at concrete inputs: a geometry mysql column has no canonical type, an
undecodable byte cell aborts the row, a decodable one becomes text,
and a postgres `bytea` cell hits the unsupported-type panic. -/
theorem spec_C6_witness :
    (mysqlMapColumnType .MYSQL_TYPE_GEOMETRY false = none) ∧
    mysql_to_row (fun _ => none) [] [.Bytes [255]] = .error "mysql: invalid utf8" ∧
    mysqlConvertCell (fun _ => some "a") none (.Bytes [97]) = .ok (.String "a") ∧
    pgConvertCell ⟨⟨.Simple, "bytea"⟩, .Other⟩ =
      .error ("postgres: unsupported type: " ++ "bytea") := by
  refine ⟨?_, ?_, ?_, ?_⟩
  · exact (spec_C6.1 .MYSQL_TYPE_GEOMETRY false).mpr (by simp)
  · exact spec_C6.2.2.1 (fun _ => none) [] [] [255] [] [] rfl rfl
  · exact spec_C6.2.2.2.1 (fun _ => some "a") none [97] "a" rfl
  · exact spec_C6.2.2.2.2 ⟨.Simple, "bytea"⟩ .Other (Or.inr (by simp))

/-! ## Path and inclusion lemmas for the schema-tree proofs -/

/-- Snoc-prefix unfolding: `r ++ [j]` prefixes `m` iff `m` continues
`r` with `j`. -/
theorem prefix_snoc_ex {r : Path} {j : Nat} {m : Path} :
    r ++ [j] <+: m ↔ ∃ t, m = r ++ j :: t := by
  constructor
  · rintro ⟨t, ht⟩
    exact ⟨t, by rw [← ht]; simp⟩
  · rintro ⟨t, rfl⟩
    exact ⟨t, by simp⟩

/-- The component of `m` at level `r.length` under a snoc-prefix. -/
theorem level_component {r : Path} {j : Nat} {m : Path} (h : r ++ [j] <+: m) :
    m[r.length]? = some j := by
  obtain ⟨t, rfl⟩ := prefix_snoc_ex.mp h
  rw [List.getElem?_append_right (Nat.le_refl _)]
  simp

/-- Two snoc-prefixes of the same list at the same level agree. -/
theorem snoc_prefix_eq {r r' : Path} {a b : Nat} {l : Path}
    (h1 : r ++ [a] <+: l) (h2 : r' ++ [b] <+: l) (hlen : r.length = r'.length) :
    r = r' ∧ a = b := by
  have p1 : r <+: l := (List.prefix_append r [a]).trans h1
  have p2 : r' <+: l := (List.prefix_append r' [b]).trans h2
  have hr : r = r' :=
    (List.prefix_of_prefix_length_le p1 p2 (le_of_eq hlen)).eq_of_length hlen
  subst hr
  have c1 := level_component h1
  have c2 := level_component h2
  rw [c1] at c2
  exact ⟨rfl, Option.some_injective _ c2⟩

/-- A strictly shorter snoc-prefix factors through a longer prefix. -/
theorem snoc_prefix_of_lt {r r' : Path} {a : Nat} {l : Path}
    (h1 : r ++ [a] <+: l) (h2 : r' <+: l) (hlt : r.length < r'.length) :
    r ++ [a] <+: r' :=
  List.prefix_of_prefix_length_le h1 h2 (by simp [List.length_append]; omega)

/-- `incl` in terms of membership and prefixes. -/
theorem incl_iff {M : List Path} {q : Path} :
    incl M q = true ↔ ∃ m ∈ M, q <+: m := by
  simp [incl, List.any_eq_true, List.isPrefixOf_iff_prefix]

/-- A prefix of an included path is included. -/
theorem incl_prefix_mono {M : List Path} {q q' : Path} (hpre : q' <+: q)
    (h : incl M q = true) : incl M q' = true := by
  obtain ⟨m, hm, hq⟩ := incl_iff.mp h
  exact incl_iff.mpr ⟨m, hm, hpre.trans hq⟩

/-- `incl` distributes over append of match sets. -/
theorem incl_append {M N : List Path} {q : Path} :
    incl (M ++ N) q = (incl M q || incl N q) := by
  simp [incl, List.any_append]

/-- `incl` on a singleton is the prefix test. -/
theorem incl_singleton {x q : Path} : incl [x] q = q.isPrefixOf x := by
  simp [incl]

/-- `incl` of the empty set. -/
theorem incl_nil {q : Path} : incl [] q = false := rfl

/-- `incl (M ++ [x])` as a pointwise formula. -/
theorem incl_snoc {M : List Path} {x q : Path} :
    incl (M ++ [x]) q = (incl M q || decide (q <+: x)) := by
  rw [incl_append, incl_singleton]
  by_cases h : q <+: x
  · simp [h, List.isPrefixOf_iff_prefix]
  · simp [h, List.isPrefixOf_iff_prefix]

/-- `countKept` only consults `incl`. -/
theorem countKept_congr (M₁ M₂ : List Path) (r : Path) (i : Nat)
    (h : ∀ j, j < i → incl M₁ (r ++ [j]) = incl M₂ (r ++ [j])) :
    countKept M₁ r i = countKept M₂ r i := by
  unfold countKept
  congr 1
  apply List.filter_congr
  intro j hj
  exact h j (List.mem_range.mp hj)

/-- `reindexGo` only consults `incl`, at paths extending the start. -/
theorem reindexGo_congr (M₁ M₂ : List Path) :
    ∀ (w r : Path), (∀ u, incl M₁ (r ++ u) = incl M₂ (r ++ u)) →
      reindexGo M₁ r w = reindexGo M₂ r w := by
  intro w
  induction w with
  | nil => intro r _; rfl
  | cons i q ih =>
    intro r h
    simp only [reindexGo]
    rw [countKept_congr M₁ M₂ r i (fun j _ => h [j]),
        ih (r ++ [i]) (fun u => by rw [List.append_assoc]; exact h ([i] ++ u))]

/-- `reindexGo` splits over appended descent paths. -/
theorem reindexGo_append (M : List Path) :
    ∀ (w₁ w₂ r : Path),
      reindexGo M r (w₁ ++ w₂) = reindexGo M r w₁ ++ reindexGo M (r ++ w₁) w₂ := by
  intro w₁
  induction w₁ with
  | nil => intro w₂ r; simp [reindexGo]
  | cons i w ih =>
    intro w₂ r
    simp only [List.cons_append, reindexGo, List.append_eq, ih w₂ (r ++ [i]),
      List.append_assoc, List.singleton_append, List.nil_append]

mutual
/-- `restrictGo` only consults `incl` at paths extending the start. -/
theorem restrictGo_congr : ∀ (s : Dtree) (sp : Path) (M₁ M₂ : List Path),
    (∀ u, incl M₁ (sp ++ u) = incl M₂ (sp ++ u)) →
    restrictGo M₁ sp s = restrictGo M₂ sp s
  | .node nm cs, sp, M₁, M₂, h => by
    simp only [restrictGo]
    have h0 : incl M₁ sp = incl M₂ sp := by simpa using h []
    rw [h0, restrictGoList_congr cs sp 0 M₁ M₂
      (fun k u _ _ => by rw [List.append_assoc]; exact h ([k] ++ u))]

/-- `restrictGoList` only consults `incl` under the listed children. -/
theorem restrictGoList_congr : ∀ (cs : List Dtree) (sp : Path) (i : Nat) (M₁ M₂ : List Path),
    (∀ k u, i ≤ k → k < i + cs.length →
      incl M₁ ((sp ++ [k]) ++ u) = incl M₂ ((sp ++ [k]) ++ u)) →
    restrictGoList M₁ sp i cs = restrictGoList M₂ sp i cs
  | [], _, _, _, _, _ => rfl
  | c :: cs, sp, i, M₁, M₂, h => by
    simp only [restrictGoList]
    rw [restrictGo_congr c (sp ++ [i]) M₁ M₂
        (fun u => h i u (Nat.le_refl _) (by simp)),
      restrictGoList_congr cs sp (i + 1) M₁ M₂
        (fun k u hk hk2 => h k u (by omega) (by simp only [List.length_cons]; omega))]
end

/-- A node survives restriction exactly when its path is included. -/
theorem restrictGo_isSome (M : List Path) (sp : Path) (s : Dtree) :
    (restrictGo M sp s).isSome = incl M sp := by
  cases s with
  | node nm cs =>
    cases h : incl M sp <;> simp [restrictGo, h]

/-- Restriction of an excluded node. -/
theorem restrictGo_none {M : List Path} {sp : Path} (s : Dtree)
    (h : incl M sp = false) : restrictGo M sp s = none := by
  cases s with
  | node nm cs => simp [restrictGo, h]

/-- Restriction of an included node. -/
theorem restrictGo_some {M : List Path} {sp : Path} {nm : String} {cs : List Dtree}
    (h : incl M sp = true) :
    restrictGo M sp (.node nm cs) = some (.node nm (restrictGoList M sp 0 cs)) := by
  simp [restrictGo, h]

/-- `restrictGoList` splits over appended child lists. -/
theorem restrictGoList_append (M : List Path) (sp : Path) :
    ∀ (cs₁ cs₂ : List Dtree) (i : Nat),
      restrictGoList M sp i (cs₁ ++ cs₂) =
        restrictGoList M sp i cs₁ ++ restrictGoList M sp (i + cs₁.length) cs₂ := by
  intro cs₁
  induction cs₁ with
  | nil => intro cs₂ i; simp [restrictGoList]
  | cons c cs ih =>
    intro cs₂ i
    have h1 : i + 1 + cs.length = i + (cs.length + 1) := by omega
    simp only [List.cons_append, restrictGoList, List.append_eq, List.length_cons]
    rw [ih cs₂ (i + 1), h1]
    cases restrictGo M (sp ++ [i]) c <;> simp

/-- All children excluded: the restricted child list is empty. -/
theorem restrictGoList_all_none (M : List Path) (sp : Path) :
    ∀ (cs : List Dtree) (i : Nat),
      (∀ k, k < cs.length → incl M (sp ++ [i + k]) = false) →
      restrictGoList M sp i cs = [] := by
  intro cs
  induction cs with
  | nil => intro i _; rfl
  | cons c cs ih =>
    intro i h
    have h0 : incl M (sp ++ [i]) = false := by
      have := h 0 (by simp)
      simpa using this
    simp only [restrictGoList, restrictGo_none c h0]
    exact ih (i + 1) (fun k hk => by
      have := h (k + 1) (by simp; omega)
      rw [show i + (k + 1) = i + 1 + k from by omega] at this
      exact this)

/-- Length of a restricted child list, as a filtered index count. -/
theorem restrictGoList_length (M : List Path) (sp : Path) :
    ∀ (cs : List Dtree) (i : Nat),
      (restrictGoList M sp i cs).length =
        ((List.range cs.length).filter (fun k => incl M (sp ++ [i + k]))).length := by
  intro cs
  induction cs with
  | nil => intro i; rfl
  | cons c cs ih =>
    intro i
    simp only [restrictGoList, List.length_cons, List.range_succ_eq_map]
    have hmap : ((List.range cs.length).map Nat.succ).filter
        (fun k => incl M (sp ++ [i + k])) =
        ((List.range cs.length).filter (fun k => incl M (sp ++ [i + 1 + k]))).map Nat.succ := by
      rw [List.filter_map]
      congr 1
      apply List.filter_congr
      intro k _
      simp only [Function.comp]
      rw [show i + Nat.succ k = i + 1 + k from by omega]
    cases hr : restrictGo M (sp ++ [i]) c with
    | none =>
      have hinc : incl M (sp ++ [i]) = false := by
        have := restrictGo_isSome M (sp ++ [i]) c
        rw [hr] at this
        simpa using this.symm
      simp only [List.filter_cons]
      rw [show i + 0 = i from by omega, hinc, hmap, ih (i + 1)]
      simp
    | some r' =>
      have hinc : incl M (sp ++ [i]) = true := by
        have := restrictGo_isSome M (sp ++ [i]) c
        rw [hr] at this
        simpa using this.symm
      simp only [List.filter_cons]
      rw [show i + 0 = i from by omega, hinc, hmap]
      simp [ih (i + 1)]

/-- Splitting a restricted child list at one existing child. -/
theorem restrictGoList_split_at (M : List Path) (sp : Path) (cs : List Dtree)
    (j : Nat) (c : Dtree) (hc : cs[j]? = some c) :
    restrictGoList M sp 0 cs =
      restrictGoList M sp 0 (cs.take j) ++
      restrictGoList M sp j (c :: cs.drop (j + 1)) := by
  have hj : j < cs.length := by
    by_contra hge
    rw [List.getElem?_eq_none (by omega)] at hc
    cases hc
  have hdec : cs = cs.take j ++ c :: cs.drop (j + 1) := by
    have h1 := List.take_append_drop j cs
    have h2 : cs.drop j = c :: cs.drop (j + 1) := by
      have := List.getElem_cons_drop cs j hj
      rw [show cs[j] = c from by
        have := List.getElem?_eq_getElem hj
        rw [this] at hc
        exact Option.some_injective _ hc] at this
      exact this.symm
    rw [← h2, h1]
  conv_lhs => rw [hdec]
  rw [restrictGoList_append]
  congr 2
  simp [List.length_take]
  omega

/-- The restricted prefix of a child list has `countKept` entries. -/
theorem restrictGoList_take_length (M : List Path) (sp : Path) (cs : List Dtree)
    (j : Nat) (hj : j ≤ cs.length) :
    (restrictGoList M sp 0 (cs.take j)).length = countKept M sp j := by
  rw [restrictGoList_length]
  unfold countKept
  congr 1
  rw [List.length_take, Nat.min_eq_left hj]
  apply List.filter_congr
  intro k _
  simp

/-- Setting the element right after a prefix block. -/
theorem set_append_length {α : Type} :
    ∀ (l₁ : List α) (b v : α) (l₂ : List α),
      (l₁ ++ b :: l₂).set l₁.length v = l₁ ++ v :: l₂ := by
  intro l₁
  induction l₁ with
  | nil => intro b v l₂; rfl
  | cons x xs ih => intro b v l₂; simp [List.set_cons_succ, ih]

/-- Reading the element right after a prefix block. -/
theorem getElem?_append_length {α : Type} (l₁ : List α) (b : α) (l₂ : List α) :
    (l₁ ++ b :: l₂)[l₁.length]? = some b := by
  rw [List.getElem?_append_right (Nat.le_refl _)]
  simp

/-- Two sibling branches that lie on a common path agree. -/
theorem comp_eq_of_prefix {a : Path} {k j : Nat} {z : Path}
    (h : (a ++ [k]) <+: (a ++ [j]) ++ z) : k = j :=
  (snoc_prefix_eq h (List.prefix_append (a ++ [j]) z) rfl).2

/-- With no included child at or beyond `i`, the restricted child list
has exactly `countKept .. i` entries. -/
theorem restrictGoList_length_of_noright (M : List Path) (sp : Path) (cs : List Dtree)
    (i : Nat) (hnr : ∀ k, i ≤ k → incl M (sp ++ [k]) = false) (hile : i ≤ cs.length) :
    (restrictGoList M sp 0 cs).length = countKept M sp i := by
  rw [restrictGoList_length]
  unfold countKept
  rw [show cs.length = i + (cs.length - i) from by omega, List.range_add,
    List.filter_append]
  have h2 : ((List.range (cs.length - i)).map (fun x => i + x)).filter
      (fun k => incl M (sp ++ [0 + k])) = [] := by
    rw [List.filter_eq_nil_iff]
    intro k hk
    obtain ⟨x, _, rfl⟩ := List.mem_map.mp hk
    simp [hnr (i + x) (by omega)]
  rw [h2, List.append_nil]
  congr 1
  apply List.filter_congr
  intro k _
  simp

/-- Inserting one fresh node under an included parent: appending the
leaf at the end of the parent's children in the result tree (at the
descent path given by `reindexGo`) is exactly the restriction to the
enlarged match set, and the new child's index is `countKept`. `a` is
the absolute path of the current subtree `s`; the new node is
`(a ++ w) ++ [i]`. -/
theorem restrict_insert (M : List Path) (i : Nat) :
    ∀ (w : Path) (a : Path) (s : Dtree) (u : Dtree),
      incl M (a ++ w) = true →
      incl M ((a ++ w) ++ [i]) = false →
      (∀ m ∈ M, ∀ j, ((a ++ w) ++ [j]) <+: m → j < i) →
      subtreeAt (w ++ [i]) s = some u →
      ∀ t, restrictGo M a s = some t →
      ∃ t', appendChildAt (reindexGo M a w) t u.name = some (t', countKept M (a ++ w) i) ∧
            restrictGo (M ++ [(a ++ w) ++ [i]]) a s = some t' := by
  intro w
  induction w with
  | nil =>
    intro a s u hq hx hnr hsub t ht
    simp only [List.append_nil] at hq hx hnr ⊢
    cases s with
    | node nm cs =>
      have hcs : cs[i]? = some u := by
        simp only [List.nil_append, subtreeAt] at hsub
        cases hci : cs[i]? with
        | none => rw [hci] at hsub; cases hsub
        | some c =>
          rw [hci] at hsub
          simp [subtreeAt] at hsub
          rw [hsub]
      have hile : i < cs.length := by
        by_contra hge
        rw [List.getElem?_eq_none (by omega)] at hcs
        cases hcs
      have hnr' : ∀ k, i ≤ k → incl M (a ++ [k]) = false := by
        intro k hk
        by_contra hinc
        rw [Bool.not_eq_false] at hinc
        obtain ⟨m, hm, hpre⟩ := incl_iff.mp hinc
        exact absurd (hnr m hm k hpre) (by omega)
      have hteq : t = .node nm (restrictGoList M a 0 cs) := by
        rw [restrictGo_some hq] at ht
        exact (Option.some_injective _ ht).symm
      subst hteq
      -- the old kept list is exactly the restriction of the first i children
      have hsplitM : restrictGoList M a 0 cs = restrictGoList M a 0 (cs.take i) := by
        rw [restrictGoList_split_at M a cs i u hcs]
        have hmid : restrictGoList M a i (u :: cs.drop (i + 1)) = [] := by
          apply restrictGoList_all_none
          intro k _
          exact hnr' (i + k) (by omega)
        rw [hmid, List.append_nil]
      have hlen : (restrictGoList M a 0 cs).length = countKept M a i :=
        restrictGoList_length_of_noright M a cs i hnr' (by omega)
      refine ⟨.node nm (restrictGoList M a 0 cs ++ [.node u.name []]), ?_, ?_⟩
      · simp [appendChildAt, reindexGo, hlen]
      · have hqx : incl (M ++ [a ++ [i]]) a = true := by
          rw [incl_snoc, hq]
          rfl
        rw [restrictGo_some hqx]
        congr 1
        -- children of the enlarged restriction
        rw [restrictGoList_split_at (M ++ [a ++ [i]]) a cs i u hcs]
        have htake : restrictGoList (M ++ [a ++ [i]]) a 0 (cs.take i) =
            restrictGoList M a 0 (cs.take i) := by
          apply restrictGoList_congr
          intro k r _ hk2
          rw [incl_snoc]
          have hnp : ¬(((a ++ [k]) ++ r) <+: a ++ [i]) := by
            intro hp
            have hp' : (a ++ [k]) <+: (a ++ [i]) ++ ([] : Path) := by
              rw [List.append_nil]
              exact (List.prefix_append (a ++ [k]) r).trans hp
            have hk3 : k = i := comp_eq_of_prefix hp'
            rw [List.length_take] at hk2
            omega
          rw [decide_eq_false hnp]
          simp
        have hmid : restrictGo (M ++ [a ++ [i]]) (a ++ [i]) u =
            some (.node u.name []) := by
          cases u with
          | node un ucs =>
            have hux : incl (M ++ [a ++ [i]]) (a ++ [i]) = true := by
              rw [incl_snoc]
              simp [List.prefix_refl]
            rw [restrictGo_some hux]
            have hnil : restrictGoList (M ++ [a ++ [i]]) (a ++ [i]) 0 ucs = [] := by
              apply restrictGoList_all_none
              intro k _
              rw [incl_snoc]
              have h1 : incl M ((a ++ [i]) ++ [0 + k]) = false := by
                by_contra hc
                rw [Bool.not_eq_false] at hc
                have := incl_prefix_mono (List.prefix_append (a ++ [i]) [0 + k]) hc
                rw [hx] at this
                cases this
              have h2 : ¬(((a ++ [i]) ++ [0 + k]) <+: a ++ [i]) := by
                intro hp
                have := hp.length_le
                simp at this
              rw [h1, decide_eq_false h2]
              rfl
            rw [hnil]
            rfl
        have htail : restrictGoList (M ++ [a ++ [i]]) a (i + 1) (cs.drop (i + 1)) = [] := by
          apply restrictGoList_all_none
          intro k _
          rw [incl_snoc]
          have h1 : incl M (a ++ [i + 1 + k]) = false := hnr' (i + 1 + k) (by omega)
          have h2 : ¬((a ++ [i + 1 + k]) <+: a ++ [i]) := by
            intro hp
            have hp' : (a ++ [i + 1 + k]) <+: (a ++ [i]) ++ ([] : Path) := by
              rw [List.append_nil]
              exact hp
            have := comp_eq_of_prefix hp'
            omega
          rw [h1, decide_eq_false h2]
          rfl
        simp only [restrictGoList, hmid, htake, htail]
        rw [hsplitM]
  | cons j w' ih =>
    intro a s u hq hx hnr hsub t ht
    cases s with
    | node nm cs =>
      -- extract the child on the descent
      obtain ⟨c, hc, hcsub⟩ : ∃ c, cs[j]? = some c ∧ subtreeAt (w' ++ [i]) c = some u := by
        simp only [List.cons_append, subtreeAt] at hsub
        cases hcj : cs[j]? with
        | none => rw [hcj] at hsub; cases hsub
        | some c => rw [hcj] at hsub; exact ⟨c, rfl, hsub⟩
      have he : a ++ j :: w' = (a ++ [j]) ++ w' := List.append_cons a j w'
      have hq' : incl M ((a ++ [j]) ++ w') = true := by
        rw [← he]
        exact hq
      have hx' : incl M (((a ++ [j]) ++ w') ++ [i]) = false := by
        rw [← he]
        exact hx
      have hnr' : ∀ m ∈ M, ∀ k, (((a ++ [j]) ++ w') ++ [k]) <+: m → k < i := by
        intro m hm k hp
        apply hnr m hm k
        rw [he]
        exact hp
      have hja : incl M a = true :=
        incl_prefix_mono (List.prefix_append a (j :: w')) hq
      have hjc : incl M (a ++ [j]) = true :=
        incl_prefix_mono (by
          rw [he]
          exact List.prefix_append (a ++ [j]) w') hq
      have hjlt : j < cs.length := by
        by_contra hge
        rw [List.getElem?_eq_none (by omega)] at hc
        cases hc
      have hteq : t = .node nm (restrictGoList M a 0 cs) := by
        rw [restrictGo_some hja] at ht
        exact (Option.some_injective _ ht).symm
      subst hteq
      -- the restriction of the descent child
      cases c with
      | node cn ccs =>
        have htc : restrictGo M (a ++ [j]) (.node cn ccs) =
            some (.node cn (restrictGoList M (a ++ [j]) 0 ccs)) :=
          restrictGo_some hjc
        obtain ⟨tc', happ', hres'⟩ := ih (a ++ [j]) (.node cn ccs) u hq' hx' hnr' hcsub
          (.node cn (restrictGoList M (a ++ [j]) 0 ccs)) htc
        -- locate the child inside the old kept list
        have hksplit : restrictGoList M a 0 cs =
            restrictGoList M a 0 (cs.take j) ++
            (.node cn (restrictGoList M (a ++ [j]) 0 ccs)) ::
              restrictGoList M a (j + 1) (cs.drop (j + 1)) := by
          rw [restrictGoList_split_at M a cs j (.node cn ccs) hc]
          simp only [restrictGoList, htc]
        have hklen : (restrictGoList M a 0 (cs.take j)).length = countKept M a j :=
          restrictGoList_take_length M a cs j (by omega)
        refine ⟨.node nm ((restrictGoList M a 0 cs).set (countKept M a j) tc'), ?_, ?_⟩
        · have hget : (restrictGoList M a 0 cs)[countKept M a j]? =
              some (.node cn (restrictGoList M (a ++ [j]) 0 ccs)) := by
            rw [hksplit, ← hklen]
            exact getElem?_append_length _ _ _
          simp only [reindexGo, appendChildAt, hget, happ']
          rw [he]
        · have hqx : incl (M ++ [(a ++ j :: w') ++ [i]]) a = true := by
            rw [incl_snoc, hja]
            rfl
          rw [restrictGo_some hqx]
          congr 1
          rw [restrictGoList_split_at (M ++ [(a ++ j :: w') ++ [i]]) a cs j (.node cn ccs) hc]
          have hcompne : ∀ (k : Nat) (r : Path), k ≠ j →
              ¬(((a ++ [k]) ++ r) <+: (a ++ j :: w') ++ [i]) := by
            intro k r hk hp
            apply hk
            have h0 : (a ++ [k]) <+: ((a ++ [j]) ++ w') ++ [i] := by
              refine (List.prefix_append (a ++ [k]) r).trans ?_
              rw [he] at hp
              exact hp
            rw [List.append_assoc (a ++ [j]) w' [i]] at h0
            exact comp_eq_of_prefix h0
          have htake : restrictGoList (M ++ [(a ++ j :: w') ++ [i]]) a 0 (cs.take j) =
              restrictGoList M a 0 (cs.take j) := by
            apply restrictGoList_congr
            intro k r _ hk2
            rw [List.length_take] at hk2
            rw [incl_snoc, decide_eq_false (hcompne k r (by omega))]
            simp
          have htail : restrictGoList (M ++ [(a ++ j :: w') ++ [i]]) a (j + 1)
              (cs.drop (j + 1)) = restrictGoList M a (j + 1) (cs.drop (j + 1)) := by
            apply restrictGoList_congr
            intro k r hk1 _
            rw [incl_snoc, decide_eq_false (hcompne k r (by omega))]
            simp
          have hmid : restrictGo (M ++ [(a ++ j :: w') ++ [i]]) (a ++ [j])
              (.node cn ccs) = some tc' := by
            rw [he]
            exact hres'
          simp only [restrictGoList, hmid, htake, htail]
          rw [hksplit, ← hklen, set_append_length]

/-- The root path is included exactly when some match exists. -/
theorem incl_root {M : List Path} : incl M [] = !M.isEmpty := by
  cases M with
  | nil => rfl
  | cons m ms => simp [incl, List.isPrefixOf]

/-- A prefix of a valid path is valid. -/
theorem subtreeAt_append (t : Dtree) :
    ∀ (a b : Path), subtreeAt (a ++ b) t = (subtreeAt a t).bind (subtreeAt b) := by
  intro a
  induction a generalizing t with
  | nil => intro b; simp [subtreeAt]
  | cons i p ih =>
    intro b
    cases t with
    | node nm cs =>
      simp only [List.cons_append, subtreeAt]
      cases cs[i]? with
      | none => rfl
      | some c => exact ih c b

/-- Validity is inherited by prefixes. -/
theorem subtree_prefix_isSome {t : Dtree} {q sp : Path} (hpre : q <+: sp)
    (h : (subtreeAt sp t).isSome) : (subtreeAt q t).isSome := by
  obtain ⟨rest, rfl⟩ := hpre
  rw [subtreeAt_append] at h
  cases hq : subtreeAt q t with
  | none => rw [hq] at h; simp at h
  | some s => simp

/-- An insertion to the left of a divergence point cannot exist: if `m`
lies left of `sp` and both continue `r` (with `j` into `m`, `i` into
`sp`), then `j ≠ i` forces `j < i`. -/
theorem left_noright {m sp r : Path} {i j : Nat}
    (hlm : LeftOf m sp) (hrm : r ++ [j] <+: m) (hrs : r ++ [i] <+: sp)
    (hne : j ≠ i) : j < i := by
  obtain ⟨r₀, a₀, b₀, hb, ha, hba⟩ := hlm
  rcases Nat.lt_trichotomy r.length r₀.length with hlt | heq | hgt
  · -- divergence deeper than level `r`: `m` and `sp` agree at level `r`
    have h1 : r ++ [j] <+: r₀ := by
      refine snoc_prefix_of_lt hrm ?_ hlt
      exact (List.prefix_append r₀ [b₀]).trans hb
    have h2 : r ++ [j] <+: sp :=
      h1.trans ((List.prefix_append r₀ [a₀]).trans ha)
    exact absurd (snoc_prefix_eq h2 hrs rfl).2 hne
  · -- same level: components line up with the divergence
    have e1 := snoc_prefix_eq hrm hb heq
    have e2 := snoc_prefix_eq hrs ha heq
    omega
  · -- divergence above level `r`: `m` and `sp` agree at the divergence
    have h1 : r₀ ++ [b₀] <+: r := by
      refine snoc_prefix_of_lt hb ?_ hgt
      exact (List.prefix_append r [j]).trans hrm
    have h2 : r₀ ++ [b₀] <+: sp :=
      h1.trans ((List.prefix_append r [i]).trans hrs)
    have := (snoc_prefix_eq h2 ha rfl).2
    omega

/-- Appending a prefix of the inserted chain does not change reindexing
along that chain. -/
theorem reindexGo_snoc_prefix (M : List Path) (z : Path) :
    ∀ (w r : Path), (r ++ w) <+: z →
      reindexGo (M ++ [z]) r w = reindexGo M r w := by
  intro w
  induction w with
  | nil => intro r _; rfl
  | cons c w' ih =>
    intro r hp
    have hrc : r ++ [c] <+: z := by
      refine List.IsPrefix.trans ?_ hp
      rw [List.append_cons r c w']
      exact List.prefix_append (r ++ [c]) w'
    simp only [reindexGo]
    rw [countKept_congr (M ++ [z]) M r c (fun j hj => by
      rw [incl_snoc]
      have hnp : ¬((r ++ [j]) <+: z) := by
        intro hq
        exact absurd (snoc_prefix_eq hq hrc rfl).2 (by omega)
      rw [decide_eq_false hnp, Bool.or_false]),
      ih (r ++ [c]) (by rw [← List.append_cons]; exact hp)]

/-- Appending a chain prefix of `sp` does not change reindexing along
any path lying under a match left of `sp`. -/
theorem reindexGo_snoc_of_left (M : List Path) (z sp m' : Path)
    (hz : z <+: sp) (hlm : LeftOf m' sp) :
    ∀ (w r : Path), (r ++ w) <+: m' →
      reindexGo (M ++ [z]) r w = reindexGo M r w := by
  intro w
  induction w with
  | nil => intro r _; rfl
  | cons c w' ih =>
    intro r hp
    have hrc : r ++ [c] <+: m' := by
      refine List.IsPrefix.trans ?_ hp
      rw [List.append_cons r c w']
      exact List.prefix_append (r ++ [c]) w'
    simp only [reindexGo]
    rw [countKept_congr (M ++ [z]) M r c (fun j hj => by
      rw [incl_snoc]
      have hnp : ¬((r ++ [j]) <+: z) := by
        intro hq
        have hq' : r ++ [j] <+: sp := hq.trans hz
        have hcj : c ≠ j := by omega
        have := left_noright hlm hrc hq' hcj
        omega
      rw [decide_eq_false hnp, Bool.or_false]),
      ih (r ++ [c]) (by rw [← List.append_cons]; exact hp)]

/-- Pointwise equal inclusion transfers the loop invariant. -/
theorem Inv_congr {src : Dtree} {M₁ M₂ : List Path} {st : SmqSt}
    (h : ∀ q, incl M₁ q = incl M₂ q) (hi : Inv src M₁ st) : Inv src M₂ st := by
  obtain ⟨h1, h2⟩ := hi
  refine ⟨?_, ?_⟩
  · rw [h1]
    exact restrictGo_congr src [] M₁ M₂ (fun u => h ([] ++ u))
  · intro q
    rw [h2 q, h q, reindexGo_congr M₁ M₂ q [] (fun u => h ([] ++ u))]

/-- Unfolding of association-list lookup at a cons cell. -/
theorem lookup_cons {q k : Path} {v : Path} {l : List (Path × Path)} :
    List.lookup q ((k, v) :: l) = if q = k then some v else List.lookup q l := by
  simp only [List.lookup]
  by_cases h : q = k
  · subst h
    simp
  · rw [if_neg h]
    have : (q == k) = false := by
      rw [beq_eq_false_iff_ne]
      exact h
    rw [this]

/-- Folding a list whose every element leaves the state unchanged. -/
theorem foldlM_all_id {α β : Type} (f : β → α → Option β) (st : β) :
    ∀ (l : List α), (∀ q ∈ l, f st q = some st) → l.foldlM f st = some st := by
  intro l
  induction l with
  | nil => intro _; rfl
  | cons x xs ih =>
    intro h
    rw [List.foldlM_cons, h x (List.mem_cons_self x xs)]
    exact ih (fun q hq => h q (List.mem_cons_of_mem x hq))

/-- Enumerating an index function: the range-map of `f` plus the final
value, viewed as head plus shifted range-map. -/
theorem range_map_snoc {γ : Type} (f : Nat → γ) :
    ∀ (n : Nat), (List.range n).map f ++ [f n] = f 0 :: (List.range n).map (fun d => f (d + 1)) := by
  intro n
  induction n with
  | zero => rfl
  | succ n ih =>
    rw [List.range_succ]
    simp only [List.map_append, List.map_singleton]
    rw [ih]
    simp

/-- The processed chain of `subtree_matching_query`: the root, then the
successive take-prefixes down to the node itself. -/
theorem chain_decomp (sp : Path) :
    ancestorChain sp ++ [sp] =
      ([] : Path) :: (List.range sp.length).map (fun d => sp.take (d + 1)) := by
  unfold ancestorChain
  have h1 : [sp] = [sp.take sp.length] := by rw [List.take_length]
  rw [h1, range_map_snoc (fun k => sp.take k) sp.length]
  rfl

/-- Processing the sentinel root: either it is already mapped, or the
tree is empty and it becomes the new root. -/
theorem insertOne_root (src : Dtree) (M : List Path) (st : SmqSt)
    (hinv : Inv src M st) :
    ∃ st', insertOne src st [] = some st' ∧ Inv src (M ++ [([] : Path)]) st' := by
  obtain ⟨h1, h2⟩ := hinv
  cases hM : incl M [] with
  | true =>
    refine ⟨st, ?_, ?_⟩
    · unfold insertOne
      rw [h2 [], hM]
      rfl
    · refine Inv_congr (fun q => ?_) ⟨h1, h2⟩
      rw [incl_snoc]
      by_cases hq : q <+: ([] : Path)
      · have hq0 : q = [] := List.prefix_nil.mp hq
        subst hq0
        rw [hM]
        rfl
      · rw [decide_eq_false hq, Bool.or_false]
  | false =>
    have hMnil : M = [] := by
      rw [incl_root] at hM
      cases M with
      | nil => rfl
      | cons m ms => simp at hM
    subst hMnil
    have hnt : st.newTree = none := by
      rw [h1]
      exact restrictGo_none src incl_nil
    refine ⟨⟨some (.node src.name []), ([], ([] : Path)) :: st.nmap⟩, ?_, ?_, ?_⟩
    · unfold insertOne
      rw [h2 [], incl_nil]
      simp [subtreeAt, hnt]
    · -- the new tree is the restriction to the root alone
      cases src with
      | node n cs =>
        have hroot : incl [([] : Path)] ([] : Path) = true := by
          rw [incl_singleton]
          rfl
        rw [List.nil_append, restrictGo_some hroot]
        have : restrictGoList [([] : Path)] [] 0 cs = [] := by
          apply restrictGoList_all_none
          intro k _
          rw [incl_singleton]
          simp [List.isPrefixOf]
        rw [this]
        rfl
    · intro q
      rw [List.nil_append, lookup_cons]
      by_cases hq : q = []
      · subst hq
        have : incl [([] : Path)] ([] : Path) = true := by
          rw [incl_singleton]
          rfl
        rw [this]
        simp [reindexGo]
      · rw [if_neg hq, h2 q, incl_nil]
        have hf : incl [([] : Path)] q = false := by
          rw [incl_singleton]
          cases q with
          | nil => exact absurd rfl hq
          | cons a as => rfl
        rw [hf]
        rfl

/-- Processing one ancestor-chain element `sp.take (k+1)` from a state
for `M ++ [sp.take k]`: a map hit leaves the state, a miss appends the
node under its parent; either way the state now realizes
`M ++ [sp.take (k+1)]`. -/
theorem insertOne_take_step (src : Dtree) (M : List Path) (sp : Path) (k : Nat)
    (hk : k < sp.length) (hsub : (subtreeAt sp src).isSome)
    (hM : ∀ m ∈ M, LeftOf m sp) (st : SmqSt)
    (hinv : Inv src (M ++ [sp.take k]) st) :
    ∃ st', insertOne src st (sp.take (k + 1)) = some st' ∧
      Inv src (M ++ [sp.take (k + 1)]) st' := by
  obtain ⟨h1, h2⟩ := hinv
  have hik : sp[k]? = some sp[k] := List.getElem?_eq_getElem hk
  have hx : sp.take (k + 1) = sp.take k ++ [sp[k]] := by
    rw [List.take_succ, hik]
    rfl
  have hpk_pre : sp.take k <+: sp := List.take_prefix k sp
  have hx_pre : sp.take (k + 1) <+: sp := List.take_prefix (k + 1) sp
  have hpk_x : sp.take k <+: sp.take (k + 1) := by
    rw [hx]
    exact List.prefix_append _ _
  have hxlen : (sp.take (k + 1)).length = k + 1 := by
    rw [List.length_take]
    omega
  have hpklen : (sp.take k).length = k := by
    rw [List.length_take]
    omega
  cases hcase : incl (M ++ [sp.take k]) (sp.take (k + 1)) with
  | true =>
    have hMx : incl M (sp.take (k + 1)) = true := by
      rw [incl_snoc] at hcase
      cases hMx0 : incl M (sp.take (k + 1)) with
      | true => rfl
      | false =>
        rw [hMx0, Bool.false_or] at hcase
        have hpre := of_decide_eq_true hcase
        have hl := hpre.length_le
        rw [hxlen, hpklen] at hl
        omega
    obtain ⟨mw, hmw, hmwp⟩ := incl_iff.mp hMx
    refine ⟨st, ?_, ?_⟩
    · unfold insertOne
      rw [h2 _, hcase]
      rfl
    · refine Inv_congr (fun q => ?_) ⟨h1, h2⟩
      rw [incl_snoc, incl_snoc]
      cases hq : incl M q with
      | true => rfl
      | false =>
        by_cases hq1 : q <+: sp.take k
        · rw [decide_eq_true hq1, decide_eq_true (hq1.trans hpk_x)]
        · by_cases hq2 : q <+: sp.take (k + 1)
          · exfalso
            have hq2' : q = sp.take (k + 1) ∨ q <+: sp.take k := by
              rw [hx] at hq2
              rcases List.prefix_concat_iff.mp hq2 with h | h
              · exact Or.inl (by rw [hx, h])
              · exact Or.inr h
            rcases hq2' with h | h
            · subst h
              rw [incl_iff.mpr ⟨mw, hmw, hmwp⟩] at hq
              cases hq
            · exact hq1 h
          · rw [decide_eq_false hq1, decide_eq_false hq2]
  | false =>
    have hlook : st.nmap.lookup (sp.take (k + 1)) = none := by
      rw [h2 _, hcase]
      rfl
    have hsubx : (subtreeAt (sp.take (k + 1)) src).isSome :=
      subtree_prefix_isSome hx_pre hsub
    obtain ⟨u, hu⟩ : ∃ u, subtreeAt (sp.take (k + 1)) src = some u := by
      cases hsx : subtreeAt (sp.take (k + 1)) src with
      | none => rw [hsx] at hsubx; simp at hsubx
      | some u => exact ⟨u, rfl⟩
    have hparent : incl (M ++ [sp.take k]) (sp.take k) = true := by
      rw [incl_snoc, decide_eq_true (List.prefix_refl _)]
      simp
    have hplook : st.nmap.lookup (sp.take k) =
        some (reindexGo (M ++ [sp.take k]) [] (sp.take k)) := by
      rw [h2 _, hparent]
      rfl
    have hMale : incl (M ++ [sp.take k]) [] = true :=
      incl_prefix_mono List.nil_prefix hparent
    obtain ⟨t, ht⟩ : ∃ t, restrictGo (M ++ [sp.take k]) [] src = some t := by
      have hi := restrictGo_isSome (M ++ [sp.take k]) [] src
      rw [hMale] at hi
      cases hrg : restrictGo (M ++ [sp.take k]) [] src with
      | none => rw [hrg] at hi; simp at hi
      | some t => exact ⟨t, rfl⟩
    have hnr : ∀ m ∈ M ++ [sp.take k], ∀ j, ((sp.take k) ++ [j]) <+: m → j < sp[k] := by
      intro m hm j hj
      rcases List.mem_append.mp hm with hm | hm
      · have hlm := hM m hm
        have hrs : sp.take k ++ [sp[k]] <+: sp := by
          rw [← hx]
          exact hx_pre
        by_cases hji : j = sp[k]
        · exfalso
          subst hji
          have hMx : incl M (sp.take (k + 1)) = true :=
            incl_iff.mpr ⟨m, hm, by rw [hx]; exact hj⟩
          have : incl (M ++ [sp.take k]) (sp.take (k + 1)) = true := by
            rw [incl_snoc, hMx]
            rfl
          rw [hcase] at this
          cases this
        · exact left_noright hlm hj hrs hji
      · exfalso
        have hm' : m = sp.take k := List.mem_singleton.mp hm
        subst hm'
        have hl := hj.length_le
        rw [List.length_append, hpklen] at hl
        simp at hl
    have hq0 : incl (M ++ [sp.take k]) (([] : Path) ++ sp.take k) = true := by
      rw [List.nil_append]
      exact hparent
    have hx0 : incl (M ++ [sp.take k]) ((([] : Path) ++ sp.take k) ++ [sp[k]]) = false := by
      rw [List.nil_append, ← hx]
      exact hcase
    have hnr0 : ∀ m ∈ M ++ [sp.take k], ∀ j,
        ((([] : Path) ++ sp.take k) ++ [j]) <+: m → j < sp[k] := by
      intro m hm j hj
      rw [List.nil_append] at hj
      exact hnr m hm j hj
    have hsub0 : subtreeAt (sp.take k ++ [sp[k]]) src = some u := by
      rw [← hx]
      exact hu
    obtain ⟨t', happ, hres⟩ := restrict_insert (M ++ [sp.take k]) sp[k] (sp.take k)
      [] src u hq0 hx0 hnr0 hsub0 t ht
    rw [List.nil_append] at happ hres
    -- compute insertOne on the cons form of the path
    obtain ⟨x0, xs, hxs⟩ : ∃ x0 xs, sp.take (k + 1) = x0 :: xs := by
      cases hxs : sp.take (k + 1) with
      | nil => rw [hxs] at hxlen; cases hxlen
      | cons x0 xs => exact ⟨x0, xs, rfl⟩
    have hdrop : (sp.take (k + 1)).dropLast = sp.take k := by
      rw [hx]
      exact List.dropLast_concat
    refine ⟨⟨some t', (sp.take (k + 1),
        reindexGo (M ++ [sp.take k]) [] (sp.take k) ++
          [countKept (M ++ [sp.take k]) (sp.take k) sp[k]]) :: st.nmap⟩, ?_, ?_, ?_⟩
    · rw [hxs] at hlook hu hdrop ⊢
      unfold insertOne
      rw [hlook, hu]
      simp only [hdrop, hplook]
      rw [show st.newTree = some t from by rw [h1]; exact ht]
      dsimp only
      rw [happ]
    · -- new tree equals the restriction to M ++ [take (k+1)]
      show some t' = restrictGo (M ++ [sp.take (k + 1)]) [] src
      rw [← hres]
      apply restrictGo_congr
      intro q'
      rw [List.nil_append, incl_append, incl_append, incl_append, incl_singleton,
        incl_singleton, incl_singleton]
      by_cases hq1 : q' <+: sp.take k
      · rw [List.isPrefixOf_iff_prefix.mpr hq1,
          List.isPrefixOf_iff_prefix.mpr (hq1.trans hpk_x)]
        simp
      · have hb1 : (q'.isPrefixOf (sp.take k)) = false := by
          rw [← Bool.not_eq_true, List.isPrefixOf_iff_prefix]
          exact hq1
        rw [hb1]
        simp
    · -- the map invariant for the enlarged set
      intro q
      rw [lookup_cons]
      by_cases hq : q = sp.take (k + 1)
      · subst hq
        have hqi : incl (M ++ [sp.take (k + 1)]) (sp.take (k + 1)) = true := by
          rw [incl_snoc, decide_eq_true (List.prefix_refl _)]
          simp
        rw [if_pos rfl, hqi]
        -- both sides reindex to the parent's path plus the new index
        have e1 : reindexGo (M ++ [sp.take (k + 1)]) [] (sp.take (k + 1)) =
            reindexGo M [] (sp.take k) ++ [countKept M (sp.take k) sp[k]] := by
          rw [hx, reindexGo_append, List.nil_append]
          rw [ reindexGo_snoc_prefix M (sp.take k ++ [sp[k]]) (sp.take k) []
            (by rw [List.nil_append]; exact List.prefix_append _ _)]
          congr 1
          simp only [reindexGo]
          congr 1
          apply countKept_congr
          intro j hj
          rw [incl_snoc]
          have hnp : ¬((sp.take k ++ [j]) <+: sp.take k ++ [sp[k]]) := by
            intro hp
            have := (snoc_prefix_eq hp (List.prefix_refl _) rfl).2
            omega
          rw [decide_eq_false hnp, Bool.or_false]
        have e2 : reindexGo (M ++ [sp.take k]) [] (sp.take k) =
            reindexGo M [] (sp.take k) :=
          reindexGo_snoc_prefix M (sp.take k) (sp.take k) []
            (by rw [List.nil_append])
        have e3 : countKept (M ++ [sp.take k]) (sp.take k) sp[k] =
            countKept M (sp.take k) sp[k] := by
          apply countKept_congr
          intro j hj
          rw [incl_snoc]
          have hnp : ¬((sp.take k ++ [j]) <+: sp.take k) := by
            intro hp
            have hl := hp.length_le
            rw [List.length_append] at hl
            simp at hl
            omega
          rw [decide_eq_false hnp, Bool.or_false]
        rw [e1, e2, e3]
        rfl
      · rw [if_neg hq, h2 q]
        have hcond : incl (M ++ [sp.take k]) q = incl (M ++ [sp.take (k + 1)]) q := by
          rw [incl_snoc, incl_snoc]
          cases hmq : incl M q with
          | true => rfl
          | false =>
            by_cases hq1 : q <+: sp.take k
            · rw [decide_eq_true hq1, decide_eq_true (hq1.trans hpk_x)]
            · by_cases hq2 : q <+: sp.take (k + 1)
              · exfalso
                rw [hx] at hq2
                rcases List.prefix_concat_iff.mp hq2 with h | h
                · exact hq (by rw [hx, h])
                · exact hq1 h
              · rw [decide_eq_false hq1, decide_eq_false hq2]
        rw [hcond]
        cases hc2 : incl (M ++ [sp.take (k + 1)]) q with
        | false => rfl
        | true =>
          -- the reindexed path of an already-included node is unchanged
          have hval : reindexGo (M ++ [sp.take k]) [] q =
              reindexGo (M ++ [sp.take (k + 1)]) [] q := by
            rw [← hcond] at hc2
            rw [incl_snoc] at hc2
            cases hmq : incl M q with
            | true =>
              obtain ⟨m', hm', hqm'⟩ := incl_iff.mp hmq
              rw [reindexGo_snoc_of_left M (sp.take k) sp m' hpk_pre (hM m' hm') q []
                  (by rw [List.nil_append]; exact hqm'),
                reindexGo_snoc_of_left M (sp.take (k + 1)) sp m' hx_pre (hM m' hm') q []
                  (by rw [List.nil_append]; exact hqm')]
            | false =>
              rw [hmq, Bool.false_or] at hc2
              have hq1 : q <+: sp.take k := of_decide_eq_true hc2
              rw [ reindexGo_snoc_prefix M (sp.take k) q []
                  (by rw [List.nil_append]; exact hq1),
                reindexGo_snoc_prefix M (sp.take (k + 1)) q []
                  (by rw [List.nil_append]; exact hq1.trans hpk_x)]
          rw [hval]

/-- Folding the remaining chain elements from `sp.take k` down to `sp`
itself. -/
theorem chain_fold_steps (src : Dtree) (M : List Path) (sp : Path)
    (hsub : (subtreeAt sp src).isSome) (hM : ∀ m ∈ M, LeftOf m sp) :
    ∀ (d k : Nat), k + d = sp.length → ∀ st, Inv src (M ++ [sp.take k]) st →
      ∃ st', ((List.range d).map (fun e => sp.take (k + 1 + e))).foldlM (insertOne src) st
          = some st' ∧ Inv src (M ++ [sp]) st' := by
  intro d
  induction d with
  | zero =>
    intro k hk st hinv
    refine ⟨st, rfl, ?_⟩
    have hke : k = sp.length := by omega
    rw [hke, List.take_length] at hinv
    exact hinv
  | succ d ih =>
    intro k hk st hinv
    obtain ⟨st₁, hstep, hinv₁⟩ := insertOne_take_step src M sp k (by omega) hsub hM st hinv
    obtain ⟨st', hfold, hinv'⟩ := ih (k + 1) (by omega) st₁ hinv₁
    refine ⟨st', ?_, hinv'⟩
    rw [List.range_succ_eq_map, List.map_cons, List.map_map, List.foldlM_cons]
    rw [show k + 1 + 0 = k + 1 from by omega, hstep]
    have hfun : ((fun e => sp.take (k + 1 + e)) ∘ Nat.succ) =
        (fun e => sp.take (k + 1 + 1 + e)) := by
      funext e
      simp only [Function.comp]
      congr 1
      omega
    rw [hfun]
    exact hfold

/-- Processing the whole ancestor chain plus the node itself, when every
previous match lies strictly left of `sp`. -/
theorem chain_fold (src : Dtree) (M : List Path) (sp : Path)
    (hsub : (subtreeAt sp src).isSome) (hM : ∀ m ∈ M, LeftOf m sp)
    (st : SmqSt) (hinv : Inv src M st) :
    ∃ st', (ancestorChain sp ++ [sp]).foldlM (insertOne src) st = some st' ∧
      Inv src (M ++ [sp]) st' := by
  rw [chain_decomp]
  obtain ⟨st₀, hroot, hinv₀⟩ := insertOne_root src M st hinv
  obtain ⟨st', hfold, hinv'⟩ := chain_fold_steps src M sp hsub hM sp.length 0
    (by omega) st₀ hinv₀
  refine ⟨st', ?_, hinv'⟩
  rw [List.foldlM_cons, hroot]
  have hfun : (fun d => sp.take (d + 1)) = (fun e => sp.take (0 + 1 + e)) := by
    funext e
    congr 1
    omega
  rw [hfun]
  exact hfold

/-- Processing the chain when the node lies on the path to an earlier
match: every lookup hits and the state is unchanged. -/
theorem chain_fold_hit (src : Dtree) (M : List Path) (sp : Path) (st : SmqSt)
    (hinv : Inv src M st) (m₀ : Path) (hm₀ : m₀ ∈ M) (hpre : sp <+: m₀) :
    (ancestorChain sp ++ [sp]).foldlM (insertOne src) st = some st ∧
      Inv src (M ++ [sp]) st := by
  constructor
  · apply foldlM_all_id
    intro q hq
    have hqsp : q <+: sp := by
      rcases List.mem_append.mp hq with hq | hq
      · unfold ancestorChain at hq
        obtain ⟨k, _, rfl⟩ := List.mem_map.mp hq
        exact List.take_prefix k sp
      · rw [List.mem_singleton.mp hq]
    have hin : incl M q = true := incl_iff.mpr ⟨m₀, hm₀, hqsp.trans hpre⟩
    unfold insertOne
    rw [hinv.2 q, hin]
    rfl
  · refine Inv_congr (fun q => ?_) hinv
    rw [incl_snoc]
    by_cases hq : q <+: sp
    · rw [incl_iff.mpr ⟨m₀, hm₀, hq.trans hpre⟩]
      rfl
    · rw [decide_eq_false hq, Bool.or_false]

mutual
/-- The matched paths of a subtree are exactly the positions of
matching nodes, shifted by the subtree's absolute path. -/
theorem mem_matchesIn (pb : String → Bool) : ∀ (s : Dtree) (sp m : Path),
    m ∈ matchesIn pb sp s ↔
      ∃ v t, subtreeAt v s = some t ∧ pb t.name = true ∧ m = sp ++ v
  | .node nm cs, sp, m => by
    simp only [matchesIn, List.mem_append]
    constructor
    · rintro (hm | hm)
      · obtain ⟨k, c, v, t, hk, hs, hp, rfl⟩ := (mem_matchesInList pb cs sp 0 m).mp hm
        refine ⟨(0 + k) :: v, t, ?_, hp, rfl⟩
        simp only [subtreeAt, Nat.zero_add, hk]
        exact hs
      · by_cases hnm : pb nm = true
        · rw [if_pos hnm, List.mem_singleton] at hm
          subst hm
          exact ⟨[], .node nm cs, rfl, hnm, (List.append_nil _).symm⟩
        · rw [if_neg hnm] at hm
          exact absurd hm (List.not_mem_nil m)
    · rintro ⟨v, t, hs, hp, rfl⟩
      cases v with
      | nil =>
        right
        have ht : Dtree.node nm cs = t := Option.some.inj hs
        subst ht
        simp only [Dtree.name] at hp
        rw [if_pos hp, List.append_nil]
        exact List.mem_singleton.mpr rfl
      | cons j v' =>
        left
        simp only [subtreeAt] at hs
        cases hk : cs[j]? with
        | none =>
          rw [hk] at hs
          simp at hs
        | some c =>
          rw [hk] at hs
          apply (mem_matchesInList pb cs sp 0 (sp ++ j :: v')).mpr
          exact ⟨j, c, v', t, hk, hs, hp, by rw [Nat.zero_add]⟩

/-- Matched paths contributed by a child list, characterized by the
child index and the position within the child. -/
theorem mem_matchesInList (pb : String → Bool) :
    ∀ (cs : List Dtree) (sp : Path) (i : Nat) (m : Path),
    m ∈ matchesInList pb sp i cs ↔
      ∃ k c v t, cs[k]? = some c ∧ subtreeAt v c = some t ∧ pb t.name = true ∧
        m = sp ++ (i + k) :: v
  | [], sp, i, m => by
    constructor
    · intro h
      exact absurd h (List.not_mem_nil m)
    · rintro ⟨k, c, v, t, hk, -, -, -⟩
      simp at hk
  | c :: cs, sp, i, m => by
    simp only [matchesInList, List.mem_append]
    constructor
    · rintro (hm | hm)
      · obtain ⟨v, t, hs, hp, rfl⟩ := (mem_matchesIn pb c (sp ++ [i]) m).mp hm
        refine ⟨0, c, v, t, by simp, hs, hp, ?_⟩
        simp
      · obtain ⟨k, c', v, t, hk, hs, hp, rfl⟩ := (mem_matchesInList pb cs sp (i + 1) m).mp hm
        refine ⟨k + 1, c', v, t, by simpa using hk, hs, hp, ?_⟩
        have he : i + 1 + k = i + (k + 1) := by omega
        rw [he]
    · rintro ⟨k, c', v, t, hk, hs, hp, rfl⟩
      cases k with
      | zero =>
        left
        have hc : c = c' := by simpa using hk
        subst hc
        apply (mem_matchesIn pb c (sp ++ [i]) _).mpr
        refine ⟨v, t, hs, hp, ?_⟩
        simp
      | succ k' =>
        right
        apply (mem_matchesInList pb cs sp (i + 1) _).mpr
        refine ⟨k', c', v, t, by simpa using hk, hs, hp, ?_⟩
        have he : i + (k' + 1) = i + 1 + k' := by omega
        rw [he]
end

mutual
/-- A tree has a match exactly when a matching node exists at some
valid position. -/
theorem hasMatch_iff (pb : String → Bool) : ∀ (s : Dtree),
    hasMatch pb s = true ↔ ∃ w t, subtreeAt w s = some t ∧ pb t.name = true
  | .node nm cs => by
    simp only [hasMatch, Bool.or_eq_true]
    constructor
    · rintro (h | h)
      · exact ⟨[], .node nm cs, rfl, h⟩
      · obtain ⟨k, c, w, t, hk, hw, hp⟩ := (hasMatchList_iff pb cs).mp h
        refine ⟨k :: w, t, ?_, hp⟩
        simp only [subtreeAt, hk]
        exact hw
    · rintro ⟨w, t, hs, hp⟩
      cases w with
      | nil =>
        left
        have ht : Dtree.node nm cs = t := Option.some.inj hs
        subst ht
        exact hp
      | cons k w' =>
        right
        simp only [subtreeAt] at hs
        cases hk : cs[k]? with
        | none =>
          rw [hk] at hs
          simp at hs
        | some c =>
          rw [hk] at hs
          exact (hasMatchList_iff pb cs).mpr ⟨k, c, w', t, hk, hs, hp⟩

/-- A child list has a match exactly when some child contains a
matching node. -/
theorem hasMatchList_iff (pb : String → Bool) : ∀ (cs : List Dtree),
    hasMatchList pb cs = true ↔
      ∃ (k : Nat) (c : Dtree) (w : Path) (t : Dtree),
        cs[k]? = some c ∧ subtreeAt w c = some t ∧ pb t.name = true
  | [] => by
    simp only [hasMatchList]
    constructor
    · intro h
      cases h
    · rintro ⟨k, c, w, t, hk, -, -⟩
      simp at hk
  | c :: cs => by
    simp only [hasMatchList, Bool.or_eq_true]
    constructor
    · rintro (h | h)
      · obtain ⟨w, t, hw, hp⟩ := (hasMatch_iff pb c).mp h
        exact ⟨0, c, w, t, by simp, hw, hp⟩
      · obtain ⟨k, c', w, t, hk, hw, hp⟩ := (hasMatchList_iff pb cs).mp h
        exact ⟨k + 1, c', w, t, by simpa using hk, hw, hp⟩
    · rintro ⟨k, c', w, t, hk, hw, hp⟩
      cases k with
      | zero =>
        left
        have hc : c = c' := by simpa using hk
        subst hc
        exact (hasMatch_iff pb c).mpr ⟨w, t, hw, hp⟩
      | succ k' =>
        right
        exact (hasMatchList_iff pb cs).mpr ⟨k', c', w, t, by simpa using hk, hw, hp⟩
end

/-- Inclusion in the ancestor-closure of all matched paths coincides
with "the subtree at that path exists and contains a match". -/
theorem incl_matchesIn (pb : String → Bool) (src : Dtree) (q : Path) :
    incl (matchesIn pb [] src) q = subtreeHasMatch pb src q := by
  unfold subtreeHasMatch
  cases hq : subtreeAt q src with
  | none =>
    rw [Bool.eq_false_iff]
    intro hT
    obtain ⟨m, hm, hpre⟩ := incl_iff.mp hT
    obtain ⟨v, t, hs, hp, rfl⟩ := (mem_matchesIn pb src [] m).mp hm
    have hv := subtree_prefix_isSome hpre (by rw [hs]; rfl)
    rw [hq] at hv
    simp at hv
  | some t =>
    rw [Bool.eq_iff_iff]
    constructor
    · intro hT
      obtain ⟨m, hm, hpre⟩ := incl_iff.mp hT
      obtain ⟨v, t', hs, hp, rfl⟩ := (mem_matchesIn pb src [] m).mp hm
      obtain ⟨w, rfl⟩ := hpre
      rw [subtreeAt_append, hq] at hs
      exact (hasMatch_iff pb t).mpr ⟨w, t', hs, hp⟩
    · intro hT
      obtain ⟨w, t', hs, hp⟩ := (hasMatch_iff pb t).mp hT
      apply incl_iff.mpr
      refine ⟨q ++ w, ?_, List.prefix_append q w⟩
      apply (mem_matchesIn pb src [] (q ++ w)).mpr
      refine ⟨q ++ w, t', ?_, hp, (List.nil_append _).symm⟩
      rw [subtreeAt_append, hq]
      exact hs

mutual
/-- The spec-side filter keeps a node exactly when its subtree has a
match. -/
theorem specFilter_isSome (pb : String → Bool) : ∀ (s : Dtree),
    (specFilter pb s).isSome = hasMatch pb s
  | .node nm cs => by
    simp only [specFilter, hasMatch]
    rw [specFilterList_isEmpty pb cs, Bool.not_not]
    cases hb : (pb nm || hasMatchList pb cs) <;> simp [hb]

/-- The spec-side filter of a child list is empty exactly when no
child has a match. -/
theorem specFilterList_isEmpty (pb : String → Bool) : ∀ (cs : List Dtree),
    (specFilterList pb cs).isEmpty = !hasMatchList pb cs
  | [] => rfl
  | c :: cs => by
    cases hc : specFilter pb c with
    | none =>
      have hm : hasMatch pb c = false := by
        rw [← specFilter_isSome pb c, hc]
        rfl
      simp only [specFilterList, hc, hasMatchList, hm, Bool.false_or]
      exact specFilterList_isEmpty pb cs
    | some r =>
      have hm : hasMatch pb c = true := by
        rw [← specFilter_isSome pb c, hc]
        rfl
      simp only [specFilterList, hc, hasMatchList, hm, Bool.true_or,
        List.isEmpty_cons, Bool.not_true]
end

mutual
/-- When inclusion agrees pointwise with "subtree has a match", the
imperative restriction computes the spec-side filter. -/
theorem restrict_eq_spec (pb : String → Bool) : ∀ (s : Dtree) (sp : Path) (M : List Path),
    (∀ u, incl M (sp ++ u) = subtreeHasMatch pb s u) →
    restrictGo M sp s = specFilter pb s
  | .node nm cs, sp, M, hloc => by
    simp only [restrictGo, specFilter]
    have h0 : incl M sp = hasMatch pb (.node nm cs) := by
      have h := hloc []
      rw [List.append_nil] at h
      rw [h]
      rfl
    have hlist : restrictGoList M sp 0 cs = specFilterList pb cs := by
      apply restrictList_eq_spec pb cs sp 0 M
      intro k c u hk
      have h := hloc ((0 + k) :: u)
      rw [h]
      simp only [subtreeHasMatch, subtreeAt, Nat.zero_add, hk]
    have hcond : hasMatch pb (.node nm cs) = (pb nm || !(specFilterList pb cs).isEmpty) := by
      rw [specFilterList_isEmpty pb cs, Bool.not_not]
      rfl
    rw [h0, hlist, hcond]

/-- The child-list version of `restrict_eq_spec`, shifted by the
starting index. -/
theorem restrictList_eq_spec (pb : String → Bool) :
    ∀ (cs : List Dtree) (sp : Path) (i : Nat) (M : List Path),
    (∀ (k : Nat) (c : Dtree) (u : Path), cs[k]? = some c →
      incl M (sp ++ (i + k) :: u) = subtreeHasMatch pb c u) →
    restrictGoList M sp i cs = specFilterList pb cs
  | [], _, _, _, _ => rfl
  | c :: cs, sp, i, M, hloc => by
    simp only [restrictGoList, specFilterList]
    have hc : restrictGo M (sp ++ [i]) c = specFilter pb c := by
      apply restrict_eq_spec pb c (sp ++ [i]) M
      intro u
      have h := hloc 0 c u (by simp)
      rw [Nat.add_zero] at h
      rw [← List.append_cons]
      exact h
    have hcs : restrictGoList M sp (i + 1) cs = specFilterList pb cs := by
      apply restrictList_eq_spec pb cs sp (i + 1) M
      intro k c' u hk
      have h := hloc (k + 1) c' u (by simpa using hk)
      have he : i + (k + 1) = i + 1 + k := by omega
      rw [he] at h
      exact h
    rw [hc, hcs]
end

/-- Left-of divergence is preserved when the right path is extended. -/
theorem LeftOf_append (m sp u : Path) (h : LeftOf m sp) : LeftOf m (sp ++ u) := by
  obtain ⟨r, a, b, h1, h2, h3⟩ := h
  exact ⟨r, a, b, h1, h2.trans (List.prefix_append sp u), h3⟩

/-- A path under a smaller branch index lies left of the larger one. -/
theorem LeftOf_of_lt (sp : Path) (j i : Nat) (u : Path) (h : j < i) :
    LeftOf ((sp ++ [j]) ++ u) (sp ++ [i]) :=
  ⟨sp, i, j, List.prefix_append (sp ++ [j]) u, List.prefix_refl (sp ++ [i]), h⟩

/-- One iteration of the post-order loop body: a non-matching node
leaves the state alone; a matching node extends the matched set with
itself (via the whole ancestor chain). -/
theorem processNode_step (src : Dtree) (pb : String → Bool) (M : List Path) (sp : Path)
    (s : Dtree) (hsub : subtreeAt sp src = some s)
    (hM : ∀ m ∈ M, LeftOf m sp ∨ (sp <+: m ∧ m ≠ sp))
    (st : SmqSt) (hinv : Inv src M st) :
    ∃ st', processNode src (fun nm => some (pb nm)) st sp = some st' ∧
      Inv src (M ++ (if pb s.name then [sp] else [])) st' := by
  unfold processNode
  rw [hsub]
  dsimp only
  cases hpb : pb s.name with
  | false =>
    refine ⟨st, rfl, ?_⟩
    simpa using hinv
  | true =>
    by_cases hdesc : ∃ m₀ ∈ M, sp <+: m₀
    · obtain ⟨m₀, hm₀, hpre⟩ := hdesc
      obtain ⟨hfold, hinv'⟩ := chain_fold_hit src M sp st hinv m₀ hm₀ hpre
      exact ⟨st, hfold, by simpa using hinv'⟩
    · have hall : ∀ m ∈ M, LeftOf m sp := by
        intro m hm
        rcases hM m hm with h | ⟨hp, hne⟩
        · exact h
        · exact absurd ⟨m, hm, hp⟩ hdesc
      obtain ⟨st', hfold, hinv'⟩ := chain_fold src M sp (by rw [hsub]; rfl) hall st hinv
      exact ⟨st', hfold, by simpa using hinv'⟩

mutual
/-- Folding the loop body over one subtree's post-order block: the
matched set grows by exactly the subtree's matches, in order. -/
theorem blockNode (src : Dtree) (pb : String → Bool) :
    ∀ (s : Dtree) (sp : Path) (M : List Path) (st : SmqSt),
    subtreeAt sp src = some s →
    (∀ m ∈ M, LeftOf m sp) →
    Inv src M st →
    ∃ st', ((postOrder s).map (fun q => sp ++ q)).foldlM
        (processNode src (fun nm => some (pb nm))) st = some st' ∧
      Inv src (M ++ matchesIn pb sp s) st'
  | .node nm cs, sp, M, st, hsub, hM, hinv => by
    obtain ⟨st₁, hfold₁, hinv₁⟩ := blockList src pb cs sp 0 M st
      (by
        intro k c hk
        rw [subtreeAt_append, hsub]
        simp only [Option.some_bind, subtreeAt, Nat.zero_add, hk])
      (fun m hm => Or.inl (hM m hm)) hinv
    obtain ⟨st₂, hstep, hinv₂⟩ := processNode_step src pb
      (M ++ matchesInList pb sp 0 cs) sp (.node nm cs) hsub
      (by
        intro m hm
        rcases List.mem_append.mp hm with hm | hm
        · exact Or.inl (hM m hm)
        · obtain ⟨k, c, v, t, hk, hs, hp, rfl⟩ :=
            (mem_matchesInList pb cs sp 0 _).mp hm
          refine Or.inr ⟨List.prefix_append sp _, ?_⟩
          intro he
          have hlen := congrArg List.length he
          simp only [List.length_append, List.length_cons] at hlen
          omega)
      st₁ hinv₁
    refine ⟨st₂, ?_, ?_⟩
    · simp only [postOrder, List.map_append, List.map_cons, List.map_nil, List.append_nil]
      rw [List.foldlM_append, hfold₁]
      show ([sp].foldlM (processNode src fun nm => some (pb nm)) st₁ : Option SmqSt) = some st₂
      rw [List.foldlM_cons, hstep]
      rfl
    · simp only [matchesIn]
      rw [← List.append_assoc]
      exact hinv₂

/-- Folding the loop body over the blocks of a child list, starting at
child index `i`. -/
theorem blockList (src : Dtree) (pb : String → Bool) :
    ∀ (cs : List Dtree) (sp : Path) (i : Nat) (M : List Path) (st : SmqSt),
    (∀ (k : Nat) (c : Dtree), cs[k]? = some c → subtreeAt (sp ++ [i + k]) src = some c) →
    (∀ m ∈ M, LeftOf m sp ∨ ∃ j u, j < i ∧ m = (sp ++ [j]) ++ u) →
    Inv src M st →
    ∃ st', ((postOrderList i cs).map (fun q => sp ++ q)).foldlM
        (processNode src (fun nm => some (pb nm))) st = some st' ∧
      Inv src (M ++ matchesInList pb sp i cs) st'
  | [], sp, i, M, st, _, _, hinv => ⟨st, rfl, by simpa [matchesInList] using hinv⟩
  | c :: cs, sp, i, M, st, hval, hM, hinv => by
    obtain ⟨st₁, hfold₁, hinv₁⟩ := blockNode src pb c (sp ++ [i]) M st
      (by
        have h := hval 0 c (by simp)
        rw [Nat.add_zero] at h
        exact h)
      (by
        intro m hm
        rcases hM m hm with h | ⟨j, u, hj, rfl⟩
        · exact LeftOf_append m sp [i] h
        · exact LeftOf_of_lt sp j i u hj)
      hinv
    obtain ⟨st₂, hfold₂, hinv₂⟩ := blockList src pb cs sp (i + 1)
      (M ++ matchesIn pb (sp ++ [i]) c) st₁
      (by
        intro k c' hk
        have h := hval (k + 1) c' (by simpa using hk)
        have he : i + (k + 1) = i + 1 + k := by omega
        rw [he] at h
        exact h)
      (by
        intro m hm
        rcases List.mem_append.mp hm with hm | hm
        · rcases hM m hm with h | ⟨j, u, hj, rfl⟩
          · exact Or.inl h
          · exact Or.inr ⟨j, u, by omega, rfl⟩
        · obtain ⟨v, t, hs, hp, rfl⟩ := (mem_matchesIn pb c (sp ++ [i]) _).mp hm
          exact Or.inr ⟨i, v, by omega, rfl⟩)
      hinv₁
    refine ⟨st₂, ?_, ?_⟩
    · simp only [postOrderList, List.map_append, List.map_map]
      rw [List.foldlM_append]
      have hcomp : ((fun q => sp ++ q) ∘ (fun q => i :: q)) = (fun q => (sp ++ [i]) ++ q) := by
        funext q
        show sp ++ i :: q = (sp ++ [i]) ++ q
        rw [List.append_cons]
      rw [hcomp, hfold₁]
      exact hfold₂
    · simp only [matchesInList]
      rw [← List.append_assoc]
      exact hinv₂
end

/-- `subtree_matching_query` with a total predicate: the result is the
spec-side minimal matching subtree, with no panic. -/
theorem smq_total (pb : String → Bool) (t : Option Dtree) :
    subtree_matching_query t (fun nm => some (pb nm)) =
      some (t.bind (specFilter pb)) := by
  cases t with
  | none => rfl
  | some src =>
    have hinv0 : Inv src [] ⟨none, []⟩ := by
      constructor
      · rw [restrictGo_none src incl_nil]
      · intro q
        rw [incl_nil]
        rfl
    obtain ⟨st', hfold, hinv'⟩ := blockNode src pb src [] [] ⟨none, []⟩ rfl
      (fun m hm => absurd hm (List.not_mem_nil m)) hinv0
    have hmap : (postOrder src).map (fun q => ([] : Path) ++ q) = postOrder src := by
      simp
    rw [hmap] at hfold
    show ((postOrder src).foldlM (processNode src fun nm => some (pb nm))
      ⟨none, []⟩).map SmqSt.newTree = some ((some src).bind (specFilter pb))
    rw [hfold]
    simp only [Option.map_some', Option.some_bind]
    congr 1
    rw [hinv'.1, List.nil_append]
    apply restrict_eq_spec pb src [] (matchesIn pb [] src)
    intro u
    rw [List.nil_append]
    exact incl_matchesIn pb src u

/-- Monadic fold over `Option` respects pointwise equal step
functions. -/
theorem foldlM_congr {α β : Type} (f g : β → α → Option β) (h : ∀ b a, f b a = g b a) :
    ∀ (l : List α) (b : β), l.foldlM f b = l.foldlM g b := by
  intro l
  induction l with
  | nil => intro b; rfl
  | cons x xs ih =>
    intro b
    rw [List.foldlM_cons, List.foldlM_cons, h b x]
    cases g b x with
    | none => rfl
    | some b' => exact ih b'

/-- The loop body only consults the predicate on node names. -/
theorem processNode_congr (src : Dtree) (p p' : String → Option Bool)
    (h : ∀ nm, p nm = p' nm) (st : SmqSt) (sp : Path) :
    processNode src p st sp = processNode src p' st sp := by
  unfold processNode
  cases subtreeAt sp src with
  | none => rfl
  | some s =>
    dsimp only
    rw [h s.name]

/-- `subtree_matching_query` only consults the predicate on node
names. -/
theorem smq_congr (t : Option Dtree) (p p' : String → Option Bool)
    (h : ∀ nm, p nm = p' nm) :
    subtree_matching_query t p = subtree_matching_query t p' := by
  cases t with
  | none => rfl
  | some src =>
    unfold subtree_matching_query
    dsimp only
    rw [foldlM_congr (processNode src p) (processNode src p')
      (fun st sp => processNode_congr src p p' h st sp) (postOrder src) ⟨none, []⟩]

/-- A predicate that always panics makes the loop body panic. -/
theorem processNode_none (src : Dtree) (p : String → Option Bool)
    (hp : ∀ nm, p nm = none) (st : SmqSt) (sp : Path) :
    processNode src p st sp = none := by
  unfold processNode
  cases subtreeAt sp src with
  | none => rfl
  | some s =>
    dsimp only
    rw [hp s.name]

/-- A post-order traversal always lists at least the node itself. -/
theorem postOrder_ne_nil (s : Dtree) : postOrder s ≠ [] := by
  cases s with
  | node nm cs => simp [postOrder]

/-- With an always-panicking predicate the whole query panics on any
non-empty tree. -/
theorem smq_none_of_pnone (p : String → Option Bool) (hp : ∀ nm, p nm = none)
    (src : Dtree) : subtree_matching_query (some src) p = none := by
  unfold subtree_matching_query
  dsimp only
  obtain ⟨x, xs, hx⟩ := List.exists_cons_of_ne_nil (postOrder_ne_nil src)
  rw [hx, List.foldlM_cons, processNode_none src p hp ⟨none, []⟩ x]
  rfl

mutual
/-- The spec-side filter is idempotent on its own output. -/
theorem specFilter_idem (pb : String → Bool) : ∀ (s r : Dtree),
    specFilter pb s = some r → specFilter pb r = some r
  | .node nm cs, r, h => by
    simp only [specFilter] at h ⊢
    by_cases hc : (pb nm || !(specFilterList pb cs).isEmpty) = true
    · rw [if_pos hc] at h
      have hr : Dtree.node nm (specFilterList pb cs) = r := Option.some.inj h
      subst hr
      simp only [specFilter]
      rw [specFilterList_idem pb cs, if_pos hc]
    · rw [if_neg hc] at h
      exact absurd h (by simp)

/-- The child-list filter is idempotent. -/
theorem specFilterList_idem (pb : String → Bool) : ∀ (cs : List Dtree),
    specFilterList pb (specFilterList pb cs) = specFilterList pb cs
  | [] => rfl
  | c :: cs => by
    cases hc : specFilter pb c with
    | none =>
      simp only [specFilterList, hc]
      exact specFilterList_idem pb cs
    | some r =>
      simp only [specFilterList, hc, specFilter_idem pb c r hc]
      rw [specFilterList_idem pb cs]
end

/-- The query with a total predicate is idempotent. -/
theorem smq_idem (pb : String → Bool) (t : Option Dtree) :
    (subtree_matching_query t (fun nm => some (pb nm))).bind
      (fun r => subtree_matching_query r (fun nm => some (pb nm))) =
    subtree_matching_query t (fun nm => some (pb nm)) := by
  rw [smq_total pb t]
  show subtree_matching_query (t.bind (specFilter pb)) (fun nm => some (pb nm)) =
    some (t.bind (specFilter pb))
  rw [smq_total pb (t.bind (specFilter pb))]
  congr 1
  cases t with
  | none => rfl
  | some src =>
    show (specFilter pb src).bind (specFilter pb) = specFilter pb src
    cases h : specFilter pb src with
    | none => rfl
    | some r =>
      show specFilter pb r = some r
      exact specFilter_idem pb src r h

/-- A sublist embedding extends over an extra candidate child. -/
theorem embedsListB_cons_right (rs cs : List Dtree) (c : Dtree)
    (h : embedsListB rs cs = true) : embedsListB rs (c :: cs) = true := by
  cases rs with
  | nil => rfl
  | cons r rs' =>
    simp only [embedsListB]
    rw [h, Bool.or_true]

mutual
/-- The spec-side filter output embeds order-preservingly in the
source tree. -/
theorem embeds_specFilter (pb : String → Bool) : ∀ (s r : Dtree),
    specFilter pb s = some r → embedsB r s = true
  | .node nm cs, r, h => by
    simp only [specFilter] at h
    by_cases hc : (pb nm || !(specFilterList pb cs).isEmpty) = true
    · rw [if_pos hc] at h
      have hr : Dtree.node nm (specFilterList pb cs) = r := Option.some.inj h
      subst hr
      simp only [embedsB]
      rw [embedsList_specFilter pb cs]
      simp
    · rw [if_neg hc] at h
      exact absurd h (by simp)

/-- The filtered child list embeds as a sublist of the source child
list. -/
theorem embedsList_specFilter (pb : String → Bool) : ∀ (cs : List Dtree),
    embedsListB (specFilterList pb cs) cs = true
  | [] => rfl
  | c :: cs => by
    cases hc : specFilter pb c with
    | none =>
      simp only [specFilterList, hc]
      exact embedsListB_cons_right _ cs c (embedsList_specFilter pb cs)
    | some r =>
      simp only [specFilterList, hc, embedsListB]
      rw [embeds_specFilter pb c r hc, embedsList_specFilter pb cs]
      rfl
end

/-- C7: for every schema tree and total predicate,
`subtree_matching_query` returns (without panicking) exactly the
spec-side minimal subtree containing every matching node plus all of
its ancestors, preserving parent/child structure and child order; and
that result always embeds order-preservingly into the source tree. -/
theorem spec_C7 (t : Option Dtree) (pb : String → Bool) :
    subtree_matching_query t (fun nm => some (pb nm)) = some (t.bind (specFilter pb)) ∧
    ∀ src r, t = some src → specFilter pb src = some r → embedsB r src = true := by
  refine ⟨smq_total pb t, ?_⟩
  intro src r _ h
  exact embeds_specFilter pb src r h

/-- Witness: a concrete one-node tree with an always-true predicate. -/
theorem spec_C7_witness :
    (subtree_matching_query (some (Dtree.node "a" []))
        (fun nm => some ((fun _ => true) nm)) =
      some ((some (Dtree.node "a" [])).bind (specFilter (fun _ => true)))) ∧
    embedsB (Dtree.node "a" []) (Dtree.node "a" []) = true :=
  ⟨(spec_C7 (some (Dtree.node "a" [])) (fun _ => true)).1,
   (spec_C7 (some (Dtree.node "a" [])) (fun _ => true)).2
     (Dtree.node "a" []) (Dtree.node "a" []) rfl rfl⟩

/-- C8: `subtree_matching_query` is idempotent for every tree, query
string and regex flag: applying it to its own result with the same
`DBItem::matches` predicate yields the same result (this also covers
the panicking branches, which propagate as `none`). -/
theorem spec_C8 (engine : RegexEngine) (query : String) (isRegex : Bool)
    (t : Option Dtree) :
    (subtree_matching_query t (fun nm => DBItem.matches engine nm query isRegex)).bind
      (fun r => subtree_matching_query r (fun nm => DBItem.matches engine nm query isRegex)) =
    subtree_matching_query t (fun nm => DBItem.matches engine nm query isRegex) := by
  cases isRegex with
  | false =>
    have hp : ∀ nm, DBItem.matches engine nm query false =
        some (strContainsSub nm.toLower query) := by
      intro nm
      rfl
    have hfun : (fun r => subtree_matching_query r
          (fun nm => DBItem.matches engine nm query false)) =
        (fun r => subtree_matching_query r
          (fun nm => some (strContainsSub nm.toLower query))) :=
      funext (fun r => smq_congr r _ _ hp)
    rw [smq_congr t _ _ hp, hfun]
    exact smq_idem (fun nm => strContainsSub nm.toLower query) t
  | true =>
    cases hc : engine.compile query with
    | none =>
      have hp : ∀ nm, DBItem.matches engine nm query true = none := by
        intro nm
        unfold DBItem.matches
        rw [if_pos rfl, hc]
        rfl
      cases t with
      | none => rfl
      | some src =>
        rw [smq_none_of_pnone _ hp src]
        rfl
    | some mf =>
      have hp : ∀ nm, DBItem.matches engine nm query true = some (mf nm) := by
        intro nm
        unfold DBItem.matches
        rw [if_pos rfl, hc]
        rfl
      have hfun : (fun r => subtree_matching_query r
            (fun nm => DBItem.matches engine nm query true)) =
          (fun r => subtree_matching_query r (fun nm => some (mf nm))) :=
        funext (fun r => smq_congr r _ _ hp)
      rw [smq_congr t _ _ hp, hfun]
      exact smq_idem mf t

/-- A one-step descent is a child lookup. -/
theorem subtreeAt_singleton (i : Nat) (d : String) (cs : List Dtree) :
    subtreeAt [i] (.node d cs) = cs[i]? := by
  cases h : cs[i]? with
  | none => simp [subtreeAt, h]
  | some c => simp [subtreeAt, h]

/-- Appending a leaf directly under a node. -/
theorem appendChildAt_nil (d : String) (cs : List Dtree) (nm : String) :
    appendChildAt [] (.node d cs) nm = some (.node d (cs ++ [.node nm []]), cs.length) :=
  rfl

/-- Appending a leaf under the `i`-th child. -/
theorem appendChildAt_singleton (i : Nat) (d : String) (cs : List Dtree) (nm : String)
    (cn : String) (cc : List Dtree) (h : cs[i]? = some (.node cn cc)) :
    appendChildAt [i] (.node d cs) nm =
      some (.node d (cs.set i (.node cn (cc ++ [.node nm []]))), cc.length) := by
  simp only [appendChildAt, h]

/-- `tableNodes` distributes over appended run lists. -/
theorem tableNodes_append (gs hs : List (String × List String)) :
    tableNodes (gs ++ hs) = tableNodes gs ++ tableNodes hs := by
  simp [tableNodes]

/-- `tableNodes` preserves length. -/
theorem tableNodes_length (gs : List (String × List String)) :
    (tableNodes gs).length = gs.length := by
  simp [tableNodes]

/-- The table node of the open (last) run. -/
theorem tableNodes_get_last (gs : List (String × List String)) (g : String × List String) :
    (tableNodes (gs ++ [g]))[gs.length]? =
      some (.node g.1 (g.2.map (fun f => .node f []))) := by
  rw [tableNodes_append,
    show gs.length = (tableNodes gs).length from (tableNodes_length gs).symm]
  exact getElem?_append_length (tableNodes gs) _ []

/-- Replacing the open run's table node. -/
theorem tableNodes_set_last (gs : List (String × List String)) (g : String × List String)
    (x : Dtree) :
    (tableNodes (gs ++ [g])).set gs.length x = tableNodes gs ++ [x] := by
  rw [tableNodes_append,
    show gs.length = (tableNodes gs).length from (tableNodes_length gs).symm]
  exact set_append_length (tableNodes gs) _ x []

/-- One build row whose table name equals the open table: the column
is appended under the open node, which stays open. -/
theorem buildStep_run_eq (gs : List (String × List String)) (g : String × List String)
    (row : String × String) (h : row.1 = g.1) :
    buildStep ⟨.node "" (tableNodes (gs ++ [g])), some [gs.length]⟩ row =
      some ⟨.node "" (tableNodes (gs ++ [(g.1, g.2 ++ [row.2])])), some [gs.length]⟩ := by
  unfold buildStep
  dsimp only
  rw [subtreeAt_singleton, tableNodes_get_last gs g]
  dsimp only [Dtree.name]
  rw [if_neg (not_not_intro h)]
  dsimp only
  rw [appendChildAt_singleton gs.length "" _ row.2 g.1 (g.2.map (fun f => .node f []))
    (tableNodes_get_last gs g)]
  dsimp only
  rw [tableNodes_set_last]
  simp [tableNodes]

/-- One build row whose table name differs from the open table: a new
table node opens under the root and receives the column. -/
theorem buildStep_run_ne (gs : List (String × List String)) (g : String × List String)
    (row : String × String) (h : row.1 ≠ g.1) :
    buildStep ⟨.node "" (tableNodes (gs ++ [g])), some [gs.length]⟩ row =
      some ⟨.node "" (tableNodes ((gs ++ [g]) ++ [(row.1, [row.2])])),
        some [(gs ++ [g]).length]⟩ := by
  unfold buildStep
  dsimp only
  rw [subtreeAt_singleton, tableNodes_get_last gs g]
  dsimp only [Dtree.name]
  rw [if_pos h, appendChildAt_nil]
  dsimp only
  rw [appendChildAt_singleton (tableNodes (gs ++ [g])).length "" _ row.2 row.1 []
    (getElem?_append_length _ _ [])]
  dsimp only
  rw [set_append_length]
  simp [tableNodes, List.length_append]

/-- One spec-side grouping step on a non-empty run list. -/
theorem groupStep_concat (gs : List (String × List String)) (g : String × List String)
    (row : String × String) :
    groupStep (gs ++ [g]) row =
      if g.1 = row.1 then gs ++ [(g.1, g.2 ++ [row.2])]
      else (gs ++ [g]) ++ [(row.1, [row.2])] := by
  obtain ⟨t, fs⟩ := g
  unfold groupStep
  rw [List.getLast?_concat]
  dsimp only
  by_cases h : t = row.1
  · rw [if_pos h, if_pos h, List.dropLast_concat]
  · rw [if_neg h, if_neg h]

/-- The build loop tracks the spec-side grouping: starting from a
state holding the runs `gs` with open run `g`, the fold produces
exactly the tree of the final runs, with the last run still open. -/
theorem build_fold_run :
    ∀ (rows : List (String × String)) (gs : List (String × List String))
      (g : String × List String),
    ∃ gs' g', List.foldl groupStep (gs ++ [g]) rows = gs' ++ [g'] ∧
      rows.foldlM buildStep ⟨.node "" (tableNodes (gs ++ [g])), some [gs.length]⟩ =
        some ⟨.node "" (tableNodes (gs' ++ [g'])), some [gs'.length]⟩ := by
  intro rows
  induction rows with
  | nil => intro gs g; exact ⟨gs, g, rfl, rfl⟩
  | cons row rows ih =>
    intro gs g
    rw [List.foldl_cons, List.foldlM_cons]
    by_cases h : row.1 = g.1
    · obtain ⟨gs', g', hg, hb⟩ := ih gs (g.1, g.2 ++ [row.2])
      refine ⟨gs', g', ?_, ?_⟩
      · rw [groupStep_concat, if_pos h.symm]
        exact hg
      · rw [buildStep_run_eq gs g row h]
        exact hb
    · obtain ⟨gs', g', hg, hb⟩ := ih (gs ++ [g]) (row.1, [row.2])
      refine ⟨gs', g', ?_, ?_⟩
      · rw [groupStep_concat, if_neg (fun he => h he.symm)]
        exact hg
      · rw [buildStep_run_ne gs g row h]
        exact hb

/-- The schema build equals the tree of adjacent equal-table runs. -/
theorem schemaBuild_spec (rows : List (String × String)) :
    schemaBuild rows = some (.node "" (tableNodes (groupRuns rows))) := by
  cases rows with
  | nil => rfl
  | cons row rows =>
    unfold schemaBuild groupRuns
    rw [List.foldlM_cons, List.foldl_cons]
    have h0 : buildStep ⟨.node "" [], none⟩ row =
        some ⟨.node "" (tableNodes ([] ++ [(row.1, [row.2])])),
          some [List.length ([] : List (String × List String))]⟩ := by
      obtain ⟨tn, fn⟩ := row
      rfl
    have h1 : groupStep [] row = [] ++ [(row.1, [row.2])] := by
      obtain ⟨tn, fn⟩ := row
      rfl
    rw [h0, h1]
    obtain ⟨gs', g', hg, hb⟩ := build_fold_run rows [] (row.1, [row.2])
    show (rows.foldlM buildStep
        ⟨.node "" (tableNodes ([] ++ [(row.1, [row.2])])),
          some [List.length ([] : List (String × List String))]⟩).map BuildSt.tree =
      some (.node "" (tableNodes (List.foldl groupStep ([] ++ [(row.1, [row.2])]) rows)))
    rw [hb, hg]
    rfl

/-- C9: schema-tree construction is single-pass grouping by adjacent
equal table names -- the built tree is the sentinel root over one table
node per adjacent run, each holding that run's columns in order -- and
an input repeating a table name in two non-adjacent runs silently
produces two duplicate table nodes. -/
theorem spec_C9 :
    (∀ rows : List (String × String),
      schemaBuild rows = some (.node "" (tableNodes (groupRuns rows)))) ∧
    schemaBuild [("a", "c1"), ("b", "c2"), ("a", "c3")] =
      some (.node "" [.node "a" [.node "c1" []], .node "b" [.node "c2" []],
        .node "a" [.node "c3" []]]) := by
  refine ⟨schemaBuild_spec, ?_⟩
  rfl

end DbExport
